import Mathlib

/-!
# Verification of the mmodel topological handlers

Shallow embedding of `src/mmodel/handler.py`: the three execution
strategies (`PlainHandler`, `MemHandler`, `H5Handler`) over the shared
`TopologicalHandler` driver, together with theorems checking the
specification's claims about them.

Python values flowing through a plan are modelled by `Value` (integers
and sequences — enough to express "raw result" vs "ordered sequence of
results").  Python dictionaries keyed by strings are modelled as
functions `String → Option Value`.  A Python exception is a `PyErr`
(its type name and message); fallible code returns `Except PyErr`.
-/

namespace MModel

/-- A Python value: an integer or a sequence (list/tuple) of values. -/
inductive Value where
  | int : Int → Value
  | seq : List Value → Value

mutual

def Value.decEq : (a b : Value) → Decidable (a = b)
  | .int i, .int j =>
    if h : i = j then .isTrue (by rw [h])
    else .isFalse (by intro c; injection c; contradiction)
  | .int _, .seq _ => .isFalse (by intro c; exact Value.noConfusion c)
  | .seq _, .int _ => .isFalse (by intro c; exact Value.noConfusion c)
  | .seq xs, .seq ys =>
    match Value.decEqList xs ys with
    | .isTrue h => .isTrue (by rw [h])
    | .isFalse h => .isFalse (by intro c; injection c; contradiction)

def Value.decEqList : (xs ys : List Value) → Decidable (xs = ys)
  | [], [] => .isTrue rfl
  | [], _ :: _ => .isFalse (by intro c; exact List.noConfusion c)
  | _ :: _, [] => .isFalse (by intro c; exact List.noConfusion c)
  | x :: xs, y :: ys =>
    match Value.decEq x y, Value.decEqList xs ys with
    | .isTrue h1, .isTrue h2 => .isTrue (by rw [h1, h2])
    | .isFalse h1, _ => .isFalse (by intro c; injection c; contradiction)
    | _, .isFalse h2 => .isFalse (by intro c; injection c; contradiction)

end

instance : DecidableEq Value := Value.decEq

/-- An underlying Python exception: its type name and message. -/
structure PyErr where
  kind : String
  msg : String
deriving DecidableEq, Repr

abbrev PyResult (α : Type) := Except PyErr α

instance {ε α : Type} [DecidableEq ε] [DecidableEq α] : DecidableEq (Except ε α) :=
  fun a b =>
    match a, b with
    | .ok x, .ok y =>
      if h : x = y then .isTrue (by rw [h])
      else .isFalse (by intro c; injection c; contradiction)
    | .error x, .error y =>
      if h : x = y then .isTrue (by rw [h])
      else .isFalse (by intro c; injection c; contradiction)
    | .ok _, .error _ => .isFalse (by intro c; exact Except.noConfusion c)
    | .error _, .ok _ => .isFalse (by intro c; exact Except.noConfusion c)

/-- The `KeyError` raised by a missing dictionary (or h5 group) key. -/
def keyError (k : String) : PyErr := ⟨"KeyError", k⟩

/-- A value dictionary: `value_dict` in the handlers. -/
def VDict : Type := String → Option Value

def VDict.empty : VDict := fun _ => none

/-- Insert or overwrite: `value_dict[k] = v`. -/
def VDict.insert (d : VDict) (k : String) (v : Value) : VDict :=
  fun k' => if k' = k then some v else d k'

/-- Delete: `del value_dict[k]` (modelled as removal; total, since every call
site in the source deletes a key that is present). -/
def VDict.erase (d : VDict) (k : String) : VDict :=
  fun k' => if k' = k then none else d k'

/-- Insert a list of key/value pairs left to right (last write wins),
the effect of `dict.update` / iterating `dict.items()`. -/
def insertAll (value_dict : VDict) : List (String × Value) → VDict
  | [] => value_dict
  | (k, v) :: kvs => insertAll (value_dict.insert k v) kvs

/-- Build the initial dictionary from the call's keyword arguments. -/
def VDict.ofList (kwargs : List (String × Value)) : VDict :=
  insertAll VDict.empty kwargs

/-- Node attributes as consumed by the handlers: `node_attr["sig"]`
(ordered parameter names), `node_attr["obj"]` (the callable, which may
raise), `node_attr["returns"]` (ordered return names). -/
structure NodeAttr where
  sig : List String
  obj : List Value → PyResult Value
  returns : List String

/-- One `(node, node_attr)` pair of the topological order. -/
structure PNode where
  name : String
  attr : NodeAttr

/-- Model of `{key: value_dict[key] for key in parameters}` — looks keys up left
to right, raising `KeyError` at the first missing one. -/
def gather (value_dict : VDict) : List String → PyResult (List Value)
  | [] => .ok []
  | k :: ks =>
    match value_dict k with
    | none => .error (keyError k)
    | some v => do
      let vs ← gather value_dict ks
      pure (v :: vs)

/-- Iterating a `Value`, as `zip`/`dict(zip(...))` does: sequences
yield their elements, an integer raises `TypeError`. -/
def Value.toSeq : Value → PyResult (List Value)
  | .seq vs => .ok vs
  | .int _ => .error ⟨"TypeError", "int object is not iterable"⟩

/-- Store a node's output, the shaping shared verbatim by all three
handlers:

```
if len(returns) == 1:
    value_dict[returns[0]] = func_output
else:
    value_dict.update(dict(zip(returns, func_output)))
```
-/
def storeOutput (value_dict : VDict) (returns : List String)
    (func_output : Value) : PyResult VDict :=
  match returns with
  | [r] => .ok (value_dict.insert r func_output)
  | rs => do
    let vs ← func_output.toSeq
    pure (insertAll value_dict (rs.zip vs))

/-- The error raised by `raise_node_exception`:
`Exception(f"Exception occurred for node {node, node_attr}") from e`.
It identifies the failing node (its id and printable attributes) and
keeps the original error as its cause. -/
structure WrappedErr where
  node : String
  sigNames : List String
  returnNames : List String
  cause : PyErr
deriving DecidableEq, Repr

/-- Errors escaping `__call__`: a wrapped node-execution error, or a
raw error raised outside the per-node `try` (i.e. by `finish`). -/
inductive CallErr where
  | nodeError : WrappedErr → CallErr
  | rawError : PyErr → CallErr
deriving DecidableEq, Repr

def wrapErr (n : PNode) (e : PyErr) : WrappedErr :=
  ⟨n.name, n.attr.sig, n.attr.returns, e⟩

/-! ## PlainHandler (Retain-All) -/

namespace PlainHandler

/-- Model of `PlainHandler.initiate`: the data instance is the kwargs dict. -/
def initiate (kwargs : List (String × Value)) : VDict :=
  VDict.ofList kwargs

/-- Model of `PlainHandler.run_node` (handler.py lines 164-179). -/
def run_node (value_dict : VDict) (node_attr : NodeAttr) : PyResult VDict := do
  let kwargs ← gather value_dict node_attr.sig
  let func_output ← node_attr.obj kwargs
  storeOutput value_dict node_attr.returns func_output

/-- Model of `PlainHandler.finish` (handler.py lines 189-196): a single return
name reads one value, otherwise a tuple is built by reading each
requested name in order (raising `KeyError` at the first absent one). -/
def finish (value_dict : VDict) (returns : List String) : PyResult Value :=
  match returns with
  | [rt] =>
    match value_dict rt with
    | some v => .ok v
    | none => .error (keyError rt)
  | rts => do
    let vs ← gather value_dict rts
    pure (.seq vs)

/-- The node loop of `TopologicalHandler.__call__`: run each node in
order; a node failure is wrapped by `raise_node_exception` and aborts
the loop. -/
def drive (value_dict : VDict) : List PNode → Except WrappedErr VDict
  | [] => .ok value_dict
  | n :: rest =>
    match run_node value_dict n.attr with
    | .ok vd => drive vd rest
    | .error e => .error (wrapErr n e)

/-- Model of `TopologicalHandler.__call__` for `PlainHandler`. -/
def call (order : List PNode) (returns : List String)
    (kwargs : List (String × Value)) : Except CallErr Value :=
  match drive (initiate kwargs) order with
  | .error w => .error (.nodeError w)
  | .ok value_dict =>
    match finish value_dict returns with
    | .ok v => .ok v
    | .error e => .error (.rawError e)

end PlainHandler

/-! ## MemHandler (Counted-Eviction) -/

/-- The number of times `x` occurs as a node parameter across the plan. -/
def refCount (order : List PNode) (x : String) : Nat :=
  (order.map (fun n => n.attr.sig.count x)).sum

/-- Modelled from the spec: the function `param_counter` from `mmodel.utility` is not
under `src/`; the spec defines the Usage Counter as a "mapping from value
name to the number of remaining downstream consumers", precomputed as
"number of node-parameter references to this value across the whole
plan, plus 1 if it is a requested output", with domain the tracked names
(mapping value-name → integer ≥ 1). -/
def param_counter (order : List PNode) (returns : List String) :
    String → Option Int :=
  fun x =>
    let c : Nat := refCount order x + (if x ∈ returns then 1 else 0)
    if c = 0 then none else some (c : Int)

namespace MemHandler

/-- The `MemHandler` data instance: `(value_dict, count)`. -/
structure MemData where
  value_dict : VDict
  count : String → Option Int

/-- Insert or overwrite: `count[k] = c`. -/
def countUpdate (count : String → Option Int) (k : String) (c : Int) :
    String → Option Int :=
  fun k' => if k' = k then some c else count k'

/-- Model of `MemHandler.initiate`: `(kwargs, self.counter.copy())`. -/
def initiate (counter : String → Option Int)
    (kwargs : List (String × Value)) : MemData :=
  ⟨VDict.ofList kwargs, counter⟩

/-- The decrement loop closing `MemHandler.run_node`:

```
for key in parameters:
    count[key] -= 1
    if count[key] == 0:
        del value_dict[key]
```

`count[key] -= 1` raises `KeyError` when `key` is not tracked. -/
def countdown : MemData → List String → PyResult MemData
  | st, [] => .ok st
  | st, k :: ks =>
    match st.count k with
    | none => .error (keyError k)
    | some c =>
      let c' := c - 1
      let value_dict' :=
        if c' = 0 then st.value_dict.erase k else st.value_dict
      countdown ⟨value_dict', countUpdate st.count k c'⟩ ks

/-- Model of `MemHandler.run_node` (handler.py lines 111-131): gather the
parameters, invoke the callable, store the output, then run the
decrement/evict loop over the parameters. -/
def run_node (st : MemData) (node_attr : NodeAttr) : PyResult MemData := do
  let kwargs ← gather st.value_dict node_attr.sig
  let func_output ← node_attr.obj kwargs
  let vd ← storeOutput st.value_dict node_attr.returns func_output
  countdown ⟨vd, st.count⟩ node_attr.sig

/-- Model of `MemHandler.finish` (handler.py lines 141-149): reads from
`data_instance[0]`, same logic as `PlainHandler.finish`. -/
def finish (st : MemData) (returns : List String) : PyResult Value :=
  match returns with
  | [rt] =>
    match st.value_dict rt with
    | some v => .ok v
    | none => .error (keyError rt)
  | rts => do
    let vs ← gather st.value_dict rts
    pure (.seq vs)

/-- The node loop of `TopologicalHandler.__call__` for `MemHandler`. -/
def drive (st : MemData) : List PNode → Except WrappedErr MemData
  | [] => .ok st
  | n :: rest =>
    match run_node st n.attr with
    | .ok st' => drive st' rest
    | .error e => .error (wrapErr n e)

/-- Model of `TopologicalHandler.__call__` for a `MemHandler` whose counter
attribute is `counter`. -/
def call (counter : String → Option Int) (order : List PNode)
    (returns : List String) (kwargs : List (String × Value)) :
    Except CallErr Value :=
  match drive (initiate counter kwargs) order with
  | .error w => .error (.nodeError w)
  | .ok st =>
    match finish st returns with
    | .ok v => .ok v
    | .error e => .error (.rawError e)

/-- A constructed `MemHandler` run: `MemHandler.__init__` sets
`self.counter = param_counter(graph, additional_returns)`. -/
def callFull (order : List PNode) (returns : List String)
    (kwargs : List (String × Value)) : Except CallErr Value :=
  call (param_counter order returns) order returns kwargs

end MemHandler

/-! ## H5Handler (Durable-Persisted)

The durable store itself (h5py) is an external library; its primitives
are modelled from the spec's storage interface (§6): open-append,
`create_group`, keyed write, keyed read (`KeyError` on a missing key),
`set_attribute`, close. -/

/-- Modelled from the spec: an execution group of the durable store —
"a namespace within the durable store … holding every input/output
value of one call as individually keyed entries plus an optional
failure annotation" (attributes). -/
structure H5Group where
  datasets : VDict
  attrsMap : String → Option String

def H5Group.empty : H5Group := ⟨fun _ => none, fun _ => none⟩

/-- Modelled from the spec: the backing durable store — named groups
plus an open/closed handle state. -/
structure H5File where
  groups : String → Option H5Group
  isOpen : Bool

/-- Modelled from the spec: the primitive `handle.create_group(name) -> group`. -/
def H5File.createGroup (f : H5File) (g : String) : H5File :=
  { f with groups := fun k => if k = g then some H5Group.empty else f.groups k }

def H5File.getGroup (f : H5File) (g : String) : H5Group :=
  (f.groups g).getD H5Group.empty

def H5File.modifyGroup (f : H5File) (g : String) (h : H5Group → H5Group) :
    H5File :=
  { f with
    groups := fun k => if k = g then some (h (f.getGroup g)) else f.groups k }

/-- Model of `f"{id(self)}_{self.exe_count}"` — the execution group name. -/
def groupName (ident : String) (cnt : Nat) : String :=
  ident ++ "_" ++ Nat.repr cnt

namespace H5Handler

/-- Executor attributes used by `H5Handler`: `id(self)` and the
per-executor `exe_count` (0 after `__init__`, line 211). -/
structure H5State where
  ident : String
  exe_count : Nat

/-- Model of `H5Handler.__init__`: it sets `self.exe_count = 0`. -/
def init (ident : String) : H5State := ⟨ident, 0⟩

/-- Model of `H5Handler.write` (handler.py lines 271-280):
`for k, v in value_dict.items(): group.create_dataset(k, data=v)`. -/
def write (value_dict : List (String × Value)) (file : H5File)
    (g : String) : H5File :=
  file.modifyGroup g (fun grp =>
    { grp with datasets := insertAll grp.datasets value_dict })

/-- Model of `H5Handler.read` (handler.py lines 282-290): `group[key][()]`,
raising `KeyError` on a missing key. -/
def read (key : String) (file : H5File) (g : String) : PyResult Value :=
  match (file.getGroup g).datasets key with
  | some v => .ok v
  | none => .error (keyError key)

/-- Model of `H5Handler.initiate` (handler.py lines 215-227): increment
`exe_count`, open the file in append mode, create the execution group
named `f"{id(self)}_{self.exe_count}"`, write the kwargs into it. -/
def initiate (hs : H5State) (file : H5File)
    (kwargs : List (String × Value)) : H5State × H5File × String :=
  let hs' : H5State := ⟨hs.ident, hs.exe_count + 1⟩
  let f1 : H5File := { file with isOpen := true }
  let g := groupName hs.ident hs'.exe_count
  (hs', write kwargs (f1.createGroup g) g, g)

/-- Model of `H5Handler.run_node` (handler.py lines 229-243): parameters are
read back from the execution group one by one, the callable is
invoked, and the output is written with the shared shaping. -/
def run_node (file : H5File) (g : String) (node_attr : NodeAttr) :
    PyResult H5File := do
  let kwargs ← gather (file.getGroup g).datasets node_attr.sig
  let func_output ← node_attr.obj kwargs
  match node_attr.returns with
  | [r] => pure (write [(r, func_output)] file g)
  | rs => do
    let vs ← func_output.toSeq
    pure (write (rs.zip vs) file g)

/-- Model of `H5Handler.finish` (handler.py lines 245-257): read the requested
outputs from the group, close the file, return them.  A failing read
raises before `f.close()` is reached, leaving the handle open. -/
def finish (file : H5File) (g : String) (returns : List String) :
    PyResult Value × H5File :=
  match returns with
  | [rt] =>
    match read rt file g with
    | .ok v => (.ok v, { file with isOpen := false })
    | .error e => (.error e, file)
  | rts =>
    match gather (file.getGroup g).datasets rts with
    | .ok vs => (.ok (.seq vs), { file with isOpen := false })
    | .error e => (.error e, file)

/-- The diagnostic message written by `H5Handler.raise_node_exception`:
`f"{type(e).__name__} occurred for node {node, node_attr}: {e}"` (the
printable node identity stands in for the attribute dict's repr). -/
def noteMsg (n : PNode) (e : PyErr) : String :=
  e.kind ++ " occurred for node " ++ n.name ++ ": " ++ e.msg

/-- Model of `H5Handler.raise_node_exception` (handler.py lines 259-269): write
the diagnostic message as the `"note"` attribute of the current group,
close the file, then raise the wrapped error. -/
def raise_node_exception (file : H5File) (g : String) (n : PNode)
    (e : PyErr) : WrappedErr × H5File :=
  let f1 := file.modifyGroup g (fun grp =>
    { grp with attrsMap := fun k =>
        if k = "note" then some (noteMsg n e) else grp.attrsMap k })
  (wrapErr n e, { f1 with isOpen := false })

/-- The node loop of `TopologicalHandler.__call__` for `H5Handler`; a
node failure goes through `raise_node_exception`. -/
def drive : H5File → String → List PNode → Except (WrappedErr × H5File) H5File
  | file, _, [] => .ok file
  | file, g, n :: rest =>
    match run_node file g n.attr with
    | .ok f' => drive f' g rest
    | .error e => .error (raise_node_exception file g n e)

/-- Model of `TopologicalHandler.__call__` for `H5Handler`; also returns the
final file state and executor state (`r.1` the incremented executor
state, `r.2.1` the opened file, `r.2.2` the execution group name). -/
def call (hs : H5State) (file : H5File) (order : List PNode)
    (returns : List String) (kwargs : List (String × Value)) :
    Except CallErr Value × H5File × H5State :=
  let r := initiate hs file kwargs
  match drive r.2.1 r.2.2 order with
  | .error (w, f1) => (.error (.nodeError w), f1, r.1)
  | .ok f1 =>
    match finish f1 r.2.2 returns with
    | (.ok v, f2) => (.ok v, f2, r.1)
    | (.error e, f2) => (.error (.rawError e), f2, r.1)

end H5Handler

section PlainExamples

example :
    PlainHandler.call
      [⟨"add", ⟨["a", "b"],
        fun args => match args with
          | [.int x, .int y] => .ok (.int (x + y))
          | _ => .error ⟨"TypeError", "bad args"⟩, ["c"]⟩⟩,
       ⟨"multiply", ⟨["c", "d"],
        fun args => match args with
          | [.int x, .int y] => .ok (.int (x * y))
          | _ => .error ⟨"TypeError", "bad args"⟩, ["e"]⟩⟩]
      ["e"]
      [("a", .int 2), ("b", .int 3), ("d", .int 10)] = .ok (.int 50) := by
  decide

end PlainExamples

/-! ## Concrete fixture plans (used by examples and witnesses) -/

/-- The spec §8 example node: `add(a, b) -> c`. -/
def addNode : PNode :=
  ⟨"add", ⟨["a", "b"],
    fun args => match args with
      | [.int x, .int y] => .ok (.int (x + y))
      | _ => .error ⟨"TypeError", "bad args"⟩, ["c"]⟩⟩

/-- The spec §8 example node: `multiply(c, d) -> e`. -/
def multNode : PNode :=
  ⟨"multiply", ⟨["c", "d"],
    fun args => match args with
      | [.int x, .int y] => .ok (.int (x * y))
      | _ => .error ⟨"TypeError", "bad args"⟩, ["e"]⟩⟩

/-- The spec §8 example plan. -/
def exPlan : List PNode := [addNode, multNode]

/-- The spec §8 example inputs `a=2, b=3, d=10`. -/
def exKwargs : List (String × Value) :=
  [("a", .int 2), ("b", .int 3), ("d", .int 10)]

/-- A node whose callable always raises (for failure-path witnesses). -/
def boomNode : PNode :=
  ⟨"boom", ⟨["a"], fun _ => .error ⟨"ValueError", "boom"⟩, ["z"]⟩⟩

/-- A plan whose second node raises. -/
def boomPlan : List PNode := [addNode, boomNode]

/-- A node with two declared return names `[x, y]`. -/
def splitNode : PNode :=
  ⟨"split", ⟨["a"],
    fun args => match args with
      | [.int x] => .ok (.seq [.int x, .int (x + 1)])
      | _ => .error ⟨"TypeError", "bad args"⟩, ["x", "y"]⟩⟩

/-! ## Dictionary and gather lemmas -/

theorem VDict.insert_apply (d : VDict) (k : String) (v : Value) (x : String) :
    (d.insert k v) x = if x = k then some v else d x := rfl

theorem VDict.erase_apply (d : VDict) (k x : String) :
    (d.erase k) x = if x = k then none else d x := rfl

theorem insertAll_congr_at (x : String) :
    ∀ (kvs : List (String × Value)) (d1 d2 : VDict), d1 x = d2 x →
      insertAll d1 kvs x = insertAll d2 kvs x := by
  intro kvs
  induction kvs with
  | nil => intro d1 d2 h; exact h
  | cons kv kvs ih =>
    intro d1 d2 h
    obtain ⟨k, v⟩ := kv
    exact ih _ _ (by simp only [VDict.insert_apply, h])

theorem insertAll_apply_of_not_mem (x : String) :
    ∀ (kvs : List (String × Value)) (d : VDict), x ∉ kvs.map Prod.fst →
      insertAll d kvs x = d x := by
  intro kvs
  induction kvs with
  | nil => intro d _; rfl
  | cons kv kvs ih =>
    intro d hx
    obtain ⟨k, v⟩ := kv
    simp only [List.map_cons, List.mem_cons, not_or] at hx
    rw [insertAll, ih _ hx.2, VDict.insert_apply, if_neg hx.1]

theorem gather_congr (ks : List String) (d1 d2 : VDict)
    (h : ∀ k ∈ ks, d1 k = d2 k) : gather d1 ks = gather d2 ks := by
  induction ks with
  | nil => rfl
  | cons k ks ih =>
    have hk : d1 k = d2 k := h k (by simp)
    have hrest := ih (fun k' hk' => h k' (by simp [hk']))
    simp only [gather, hk, hrest]

theorem gather_error_iff (ks : List String) (d : VDict) :
    (∃ e, gather d ks = .error e) ↔ ∃ k ∈ ks, d k = none := by
  induction ks with
  | nil => simp [gather]
  | cons k ks ih =>
    constructor
    · rintro ⟨e, he⟩
      by_cases hk : d k = none
      · exact ⟨k, by simp, hk⟩
      · obtain ⟨v, hv⟩ := Option.ne_none_iff_exists'.mp hk
        simp only [gather, hv] at he
        cases hg : gather d ks with
        | ok vs => rw [hg] at he; simp [bind, Except.bind, pure, Except.pure] at he
        | error e' =>
          obtain ⟨k', hk', hd⟩ := ih.mp ⟨e', hg⟩
          exact ⟨k', by simp [hk'], hd⟩
    · rintro ⟨k', hk', hd⟩
      rcases List.mem_cons.mp hk' with h | h
      · subst h
        exact ⟨keyError k', by simp [gather, hd]⟩
      · by_cases hk : d k = none
        · exact ⟨keyError k, by simp [gather, hk]⟩
        · obtain ⟨v, hv⟩ := Option.ne_none_iff_exists'.mp hk
          obtain ⟨e, he⟩ := ih.mpr ⟨k', h, hd⟩
          exact ⟨e, by simp [gather, hv, he, bind, Except.bind]⟩

theorem gather_ok_forall (ks : List String) (d : VDict) (vs : List Value)
    (h : gather d ks = .ok vs) :
    List.Forall₂ (fun k v => d k = some v) ks vs := by
  induction ks generalizing vs with
  | nil =>
    simp only [gather] at h
    injection h with h
    subst h
    exact List.Forall₂.nil
  | cons k ks ih =>
    cases hv : d k with
    | none => simp [gather, hv] at h
    | some v =>
      simp only [gather, hv] at h
      cases hg : gather d ks with
      | error e => rw [hg] at h; simp [bind, Except.bind] at h
      | ok ws =>
        rw [hg] at h
        simp only [bind, Except.bind, pure, Except.pure] at h
        injection h with h
        subst h
        exact List.Forall₂.cons hv (ih ws hg)

/-- The key/value pairs a node output is stored as: the raw output
under the single return name, or the elements of the output zipped
against the return names. -/
def outPairs (returns : List String) (func_output : Value) :
    PyResult (List (String × Value)) :=
  match returns with
  | [r] => .ok [(r, func_output)]
  | rs => do
    let vs ← func_output.toSeq
    pure (rs.zip vs)

theorem storeOutput_eq_outPairs (d : VDict) (returns : List String)
    (func_output : Value) :
    storeOutput d returns func_output =
      (outPairs returns func_output).map (fun kvs => insertAll d kvs) := by
  match returns with
  | [] =>
    cases func_output with
    | int i => rfl
    | seq vs => rfl
  | [r] => rfl
  | r1 :: r2 :: rs =>
    cases func_output with
    | int i => rfl
    | seq vs => rfl

/-! ## The decrement/evict loop, characterized -/

namespace MemHandler

theorem countUpdate_apply (count : String → Option Int) (k : String) (c : Int)
    (x : String) : countUpdate count k c x = if x = k then some c else count x := rfl

/-- What one pass of the decrement loop does: every tracked counter
drops by the number of occurrences of its key among the parameters, and
a key is evicted from the mapping exactly when its counter passed
through zero during the loop. -/
theorem countdown_ok_spec :
    ∀ (ks : List String) (st st' : MemData),
      countdown st ks = .ok st' →
      (∀ x, st.count x = none →
        st'.count x = none ∧ st'.value_dict x = st.value_dict x) ∧
      (∀ x c, st.count x = some c →
        st'.count x = some (c - (ks.count x : Int)) ∧
        st'.value_dict x =
          if 1 ≤ c ∧ c ≤ (ks.count x : Int) then none else st.value_dict x) := by
  intro ks
  induction ks with
  | nil =>
    intro st st' h
    simp only [countdown] at h
    injection h with h
    subst h
    refine ⟨fun x hx => ⟨hx, rfl⟩, fun x c hc => ⟨by simp [hc], ?_⟩⟩
    have : ¬(1 ≤ c ∧ c ≤ ((List.count x [] : Nat) : Int)) := by
      simp only [List.count_nil]
      omega
    rw [if_neg this]
  | cons k ks ih =>
    intro st st' h
    cases hk : st.count k with
    | none => simp [countdown, hk] at h
    | some c =>
      simp only [countdown, hk] at h
      set vd1 : VDict :=
        if c - 1 = 0 then st.value_dict.erase k else st.value_dict with hvd1
      have h' : countdown ⟨vd1, countUpdate st.count k (c - 1)⟩ ks = .ok st' := h
      obtain ⟨ihnone, ihsome⟩ := ih _ _ h'
      dsimp only at ihnone ihsome
      have hm : (0 : Int) ≤ (List.count k ks : Int) := Int.natCast_nonneg _
      constructor
      · intro x hx
        have hxk : x ≠ k := fun hxy => by rw [hxy, hk] at hx; exact Option.noConfusion hx
        have hc1 : countUpdate st.count k (c - 1) x = none := by
          rw [countUpdate_apply, if_neg hxk]; exact hx
        obtain ⟨h1, h2⟩ := ihnone x hc1
        refine ⟨h1, ?_⟩
        rw [h2, hvd1]
        split
        · rw [VDict.erase_apply, if_neg hxk]
        · rfl
      · intro x c0 hc0
        by_cases hxk : x = k
        · subst hxk
          have hcc : c0 = c := by
            rw [hk] at hc0
            exact (Option.some.inj hc0).symm
          rw [hcc]
          have hc1 : countUpdate st.count x (c - 1) x = some (c - 1) := by
            rw [countUpdate_apply, if_pos rfl]
          obtain ⟨h1, h2⟩ := ihsome x (c - 1) hc1
          have hcnt : (List.count x (x :: ks) : Int) = (List.count x ks : Int) + 1 := by
            simp [List.count_cons]
          have hvx : vd1 x = if c - 1 = 0 then none else st.value_dict x := by
            rw [hvd1]
            split
            · rw [VDict.erase_apply, if_pos rfl]
            · rfl
          constructor
          · rw [h1, hcnt]
            congr 1
            ring
          · rw [h2, hcnt, hvx]
            have hm' : (0 : Int) ≤ (List.count x ks : Int) := Int.natCast_nonneg _
            by_cases hone : c = 1
            · subst hone
              rw [if_neg (by omega), if_pos (by omega : (1:Int) - 1 = 0),
                if_pos (by omega)]
            · rw [if_neg (by omega : ¬(c - 1 = 0))]
              by_cases hdur : 1 ≤ c - 1 ∧ c - 1 ≤ (List.count x ks : Int)
              · rw [if_pos hdur, if_pos (by omega)]
              · rw [if_neg hdur, if_neg (by omega)]
        · have hc1 : countUpdate st.count k (c - 1) x = some c0 := by
            rw [countUpdate_apply, if_neg hxk]; exact hc0
          obtain ⟨h1, h2⟩ := ihsome x c0 hc1
          have hcnt : (List.count x (k :: ks) : Int) = (List.count x ks : Int) := by
            simp [List.count_cons, Ne.symm hxk]
          have hvx : vd1 x = st.value_dict x := by
            rw [hvd1]
            split
            · rw [VDict.erase_apply, if_neg hxk]
            · rfl
          refine ⟨by rw [h1, hcnt], ?_⟩
          rw [h2, hcnt, hvx]

/-- The decrement loop never raises when every parameter is tracked. -/
theorem countdown_total :
    ∀ (ks : List String) (st : MemData),
      (∀ k ∈ ks, (st.count k).isSome) → ∃ st', countdown st ks = .ok st' := by
  intro ks
  induction ks with
  | nil => intro st _; exact ⟨st, rfl⟩
  | cons k ks ih =>
    intro st hdom
    cases hk : st.count k with
    | none =>
      have := hdom k (by simp)
      rw [hk] at this
      exact absurd this (by simp)
    | some c =>
      have hdom' : ∀ k' ∈ ks, ((countUpdate st.count k (c - 1)) k').isSome := by
        intro k' hk'
        rw [countUpdate_apply]
        split
        · simp
        · exact hdom k' (by simp [hk'])
      obtain ⟨st', hst'⟩ :=
        ih ⟨if c - 1 = 0 then st.value_dict.erase k else st.value_dict,
            countUpdate st.count k (c - 1)⟩ hdom'
      exact ⟨st', by simp only [countdown, hk]; exact hst'⟩

end MemHandler

/-! ## Except plumbing -/

theorem bindE_ok {ε α β : Type} (m : Except ε α) (f : α → Except ε β) (b : β) :
    m >>= f = .ok b ↔ ∃ a, m = .ok a ∧ f a = .ok b := by
  cases m <;> simp [bind, Except.bind]

theorem bindE_error {ε α β : Type} (m : Except ε α) (f : α → Except ε β) (e : ε) :
    m >>= f = .error e ↔ m = .error e ∨ ∃ a, m = .ok a ∧ f a = .error e := by
  cases m <;> simp [bind, Except.bind]

/-! ## Claim theorems: output shaping (C5) and shadowed-output eviction (C10) -/

/-- **C5.** In every strategy, when a node's parameters gather
successfully and its callable returns, a node with exactly one declared
return name stores the raw result under that name, and a node with more
than one treats the result as an ordered sequence stored positionally
zipped against the return names (in `MemHandler` the store is what the
decrement loop then runs on). -/
theorem run_node_output_shaping
    (vd : VDict) (count : String → Option Int) (file : H5File) (g : String)
    (attr : NodeAttr) (args : List Value) (func_output : Value)
    (hgather : gather vd attr.sig = .ok args)
    (hg5 : gather (file.getGroup g).datasets attr.sig = .ok args)
    (hobj : attr.obj args = .ok func_output) :
    (∀ r, attr.returns = [r] →
      PlainHandler.run_node vd attr = .ok (vd.insert r func_output) ∧
      MemHandler.run_node ⟨vd, count⟩ attr =
        MemHandler.countdown ⟨vd.insert r func_output, count⟩ attr.sig ∧
      H5Handler.run_node file g attr =
        .ok (H5Handler.write [(r, func_output)] file g)) ∧
    (1 < attr.returns.length → ∀ vs, func_output = .seq vs →
      PlainHandler.run_node vd attr = .ok (insertAll vd (attr.returns.zip vs)) ∧
      MemHandler.run_node ⟨vd, count⟩ attr =
        MemHandler.countdown ⟨insertAll vd (attr.returns.zip vs), count⟩ attr.sig ∧
      H5Handler.run_node file g attr =
        .ok (H5Handler.write (attr.returns.zip vs) file g)) := by
  constructor
  · intro r hr
    refine ⟨?_, ?_, ?_⟩
    · simp [PlainHandler.run_node, hgather, hobj, hr, storeOutput,
        bind, Except.bind, pure, Except.pure]
    · simp [MemHandler.run_node, hgather, hobj, hr, storeOutput,
        bind, Except.bind, pure, Except.pure]
    · simp [H5Handler.run_node, hg5, hobj, hr,
        bind, Except.bind, pure, Except.pure]
  · intro hlen vs hvs
    rcases hr : attr.returns with _ | ⟨r1, rts⟩
    · rw [hr] at hlen; simp at hlen
    rcases rts with _ | ⟨r2, rts'⟩
    · rw [hr] at hlen; simp at hlen
    refine ⟨?_, ?_, ?_⟩
    · simp [PlainHandler.run_node, hgather, hobj, hr, hvs, storeOutput,
        Value.toSeq, bind, Except.bind, pure, Except.pure]
    · simp [MemHandler.run_node, hgather, hobj, hr, hvs, storeOutput,
        Value.toSeq, bind, Except.bind, pure, Except.pure]
    · simp [H5Handler.run_node, hg5, hobj, hr, hvs,
        Value.toSeq, bind, Except.bind, pure, Except.pure]

/-- Witness for C5 on a concrete single-return node and a concrete
two-return node. -/
theorem run_node_output_shaping_witness :
    PlainHandler.run_node (VDict.ofList [("a", .int 2), ("b", .int 3)])
        addNode.attr =
      .ok ((VDict.ofList [("a", .int 2), ("b", .int 3)]).insert "c" (.int 5)) ∧
    PlainHandler.run_node (VDict.ofList [("a", .int 4)]) splitNode.attr =
      .ok (insertAll (VDict.ofList [("a", .int 4)])
        (["x", "y"].zip [.int 4, .int 5])) := by
  constructor
  · exact ((run_node_output_shaping
      (VDict.ofList [("a", .int 2), ("b", .int 3)]) (fun _ => none)
      ⟨fun _ => some ⟨VDict.ofList [("a", .int 2), ("b", .int 3)],
        fun _ => none⟩, true⟩
      "g" addNode.attr [.int 2, .int 3] (.int 5)
      (by decide) (by decide) (by decide)).1 "c" rfl).1
  · exact ((run_node_output_shaping
      (VDict.ofList [("a", .int 4)]) (fun _ => none)
      ⟨fun _ => some ⟨VDict.ofList [("a", .int 4)], fun _ => none⟩, true⟩
      "g" splitNode.attr [.int 4]
      (.seq [.int 4, .int 5])
      (by decide) (by decide) (by decide)).2 (by decide)
      [.int 4, .int 5] rfl).1

/-- **C10.** In `MemHandler.run_node` the node's results are stored
before the parameter counters are decremented; hence when a node
returns a name that is also one of its parameters and that parameter's
working counter reaches zero at this node, the freshly stored output is
deleted from the mapping (absent for later consumers and for
`finish`). -/
theorem mem_run_node_evicts_shadowed_output
    (st st' : MemHandler.MemData) (attr : NodeAttr) (r : String)
    (hrun : MemHandler.run_node st attr = .ok st')
    (_hret : r ∈ attr.returns) (hpar : r ∈ attr.sig)
    (hzero : st'.count r = some 0) :
    st'.value_dict r = none := by
  simp only [MemHandler.run_node, bindE_ok] at hrun
  obtain ⟨args, hargs, out, hout, vd1, hvd1, hcd⟩ := hrun
  obtain ⟨hnone, hsome⟩ := MemHandler.countdown_ok_spec _ _ _ hcd
  cases hc : st.count r with
  | none =>
    obtain ⟨h1, _⟩ := hnone r hc
    rw [h1] at hzero
    exact Option.noConfusion hzero
  | some c =>
    obtain ⟨h1, h2⟩ := hsome r c hc
    rw [h1] at hzero
    have hcm : c = (List.count r attr.sig : Int) := by
      have := Option.some.inj hzero
      omega
    have hpos : 0 < List.count r attr.sig := List.count_pos_iff.mpr hpar
    rw [h2, if_pos ⟨by omega, by omega⟩]

/-- Witness for C10: a node `f(x) -> x` whose parameter `x` has exactly
one remaining consumer; after the node runs, the fresh output `x` has
been evicted. -/
theorem mem_run_node_evicts_shadowed_output_witness :
    ∃ st' : MemHandler.MemData,
      MemHandler.run_node
        ⟨VDict.ofList [("x", .int 1)], fun k => if k = "x" then some 1 else none⟩
        ⟨["x"], fun _ => .ok (.int 9), ["x"]⟩ = .ok st' ∧
      st'.value_dict "x" = none := by
  have hmap : (MemHandler.run_node
      ⟨VDict.ofList [("x", .int 1)], fun k => if k = "x" then some 1 else none⟩
      ⟨["x"], fun _ => .ok (.int 9), ["x"]⟩).map
        (fun st => MemHandler.MemData.count st "x") = .ok (some 0) := by decide
  cases hrun : MemHandler.run_node
      ⟨VDict.ofList [("x", .int 1)], fun k => if k = "x" then some 1 else none⟩
      ⟨["x"], fun _ => .ok (.int 9), ["x"]⟩ with
  | error e => rw [hrun] at hmap; simp [Except.map] at hmap
  | ok st' =>
    rw [hrun] at hmap
    have hc : st'.count "x" = some 0 := by simpa [Except.map] using hmap
    exact ⟨st', rfl, mem_run_node_evicts_shadowed_output _ _
      ⟨["x"], fun _ => .ok (.int 9), ["x"]⟩ "x" hrun (by simp) (by simp) hc⟩

/-! ## Finish, construction, and requested outputs (C8, C7, C3) -/

theorem mem_finish_eq_plain (st : MemHandler.MemData) (rets : List String) :
    MemHandler.finish st rets = PlainHandler.finish st.value_dict rets := rfl

theorem plain_finish_error_iff (vd : VDict) (rets : List String) :
    (∃ e, PlainHandler.finish vd rets = .error e) ↔ ∃ r ∈ rets, vd r = none := by
  match rets with
  | [] =>
    simp [PlainHandler.finish, gather, bind, Except.bind, pure, Except.pure]
  | [rt] =>
    cases h : vd rt with
    | none => simp [PlainHandler.finish, h]
    | some v => simp [PlainHandler.finish, h]
  | r1 :: r2 :: rts =>
    rw [show PlainHandler.finish vd (r1 :: r2 :: rts) =
        (do
          let vs ← gather vd (r1 :: r2 :: rts)
          pure (.seq vs) : PyResult Value) from rfl]
    constructor
    · rintro ⟨e, he⟩
      rw [bindE_error] at he
      rcases he with he | ⟨vs, _, hpure⟩
      · exact (gather_error_iff _ _).mp ⟨e, he⟩
      · simp [pure, Except.pure] at hpure
    · intro hmem
      obtain ⟨e, he⟩ := (gather_error_iff (r1 :: r2 :: rts) vd).mpr hmem
      exact ⟨e, by rw [bindE_error]; exact Or.inl he⟩

/-- **C8.** In the Retain-All and Counted-Eviction strategies, `finish`
fails if and only if some requested output name is absent from the data
instance's mapping; when every requested name is present it returns
values without error. -/
theorem finish_missing_value
    (vd : VDict) (st : MemHandler.MemData) (rets : List String) :
    ((∃ e, PlainHandler.finish vd rets = .error e) ↔ ∃ r ∈ rets, vd r = none) ∧
    ((∀ r ∈ rets, (vd r).isSome) →
      ∃ v, PlainHandler.finish vd rets = .ok v) ∧
    ((∃ e, MemHandler.finish st rets = .error e) ↔
      ∃ r ∈ rets, st.value_dict r = none) ∧
    ((∀ r ∈ rets, (st.value_dict r).isSome) →
      ∃ v, MemHandler.finish st rets = .ok v) := by
  have total : ∀ (d : VDict), (∀ r ∈ rets, (d r).isSome) →
      ∃ v, PlainHandler.finish d rets = .ok v := by
    intro d hall
    cases hf : PlainHandler.finish d rets with
    | ok v => exact ⟨v, rfl⟩
    | error e =>
      obtain ⟨r, hr, hnone⟩ := (plain_finish_error_iff d rets).mp ⟨e, hf⟩
      have := hall r hr
      rw [hnone] at this
      exact absurd this (by simp)
  exact ⟨plain_finish_error_iff vd rets, total vd,
    by rw [mem_finish_eq_plain]; exact plain_finish_error_iff st.value_dict rets,
    by rw [mem_finish_eq_plain]; exact total st.value_dict⟩

/-- Witness for C8: on a mapping holding only `e`, `finish` succeeds for
request `[e]` and fails for request `[c, e]` (`c` absent). -/
theorem finish_missing_value_witness :
    (∃ v, PlainHandler.finish (VDict.ofList [("e", .int 50)]) ["e"] = .ok v) ∧
    (∃ e, PlainHandler.finish (VDict.ofList [("e", .int 50)]) ["c", "e"] =
      .error e) := by
  constructor
  · exact (finish_missing_value (VDict.ofList [("e", .int 50)])
      ⟨VDict.empty, fun _ => none⟩ ["e"]).2.1 (by decide)
  · exact (finish_missing_value (VDict.ofList [("e", .int 50)])
      ⟨VDict.empty, fun _ => none⟩ ["c", "e"]).1.mpr ⟨"c", by decide, by decide⟩

/-- Model of line 58 of handler.py:
`self.returns = sorted(model_returns(graph) + additional_returns)`
(`model_returns(graph)` is an input here: deriving it from the graph is
out of scope per the spec, §1). -/
def constructReturns (model_rets additional_returns : List String) : List String :=
  (model_rets ++ additional_returns).mergeSort (fun a b => decide (a ≤ b))

theorem plain_finish_ok_shape (vd : VDict) (rets : List String) (v : Value)
    (h : PlainHandler.finish vd rets = .ok v) :
    (∃ r, rets = [r] ∧ vd r = some v) ∨
    (rets.length ≠ 1 ∧ ∃ vs, v = .seq vs ∧
      List.Forall₂ (fun r w => vd r = some w) rets vs) := by
  match rets with
  | [] =>
    right
    refine ⟨by simp, [], ?_, List.Forall₂.nil⟩
    simp only [PlainHandler.finish, gather, pure, Except.pure] at h
    exact (Except.ok.inj h).symm
  | [rt] =>
    left
    refine ⟨rt, rfl, ?_⟩
    cases hr : vd rt with
    | none => simp [PlainHandler.finish, hr] at h
    | some w =>
      simp only [PlainHandler.finish, hr] at h
      rw [Except.ok.inj h]
  | r1 :: r2 :: rts =>
    right
    rw [show PlainHandler.finish vd (r1 :: r2 :: rts) =
        (do
          let vs ← gather vd (r1 :: r2 :: rts)
          pure (.seq vs) : PyResult Value) from rfl, bindE_ok] at h
    obtain ⟨vs, hg, hpure⟩ := h
    refine ⟨by simp, vs, ?_, gather_ok_forall _ _ _ hg⟩
    simp only [pure, Except.pure] at hpure
    exact (Except.ok.inj hpure).symm

/-- **C7.** The requested-output list is sorted at construction, and a
successful call returns the single requested value when exactly one
output is requested, and otherwise the ordered tuple of the requested
values in that sorted order. -/
theorem call_returns_sorted_shape (model_rets additional_returns : List String)
    (order : List PNode) (kwargs : List (String × Value)) :
    List.Sorted (· ≤ ·) (constructReturns model_rets additional_returns) ∧
    (∀ v, PlainHandler.call order
        (constructReturns model_rets additional_returns) kwargs = .ok v →
      ∃ vd, PlainHandler.drive (PlainHandler.initiate kwargs) order = .ok vd ∧
        ((∃ r, constructReturns model_rets additional_returns = [r] ∧
            vd r = some v) ∨
         ((constructReturns model_rets additional_returns).length ≠ 1 ∧
           ∃ vs, v = .seq vs ∧
             List.Forall₂ (fun r w => vd r = some w)
               (constructReturns model_rets additional_returns) vs))) := by
  constructor
  · exact List.sorted_mergeSort' (model_rets ++ additional_returns)
  · intro v hv
    unfold PlainHandler.call at hv
    cases hd : PlainHandler.drive (PlainHandler.initiate kwargs) order with
    | error w => simp only [hd] at hv; exact Except.noConfusion hv
    | ok vd =>
      simp only [hd] at hv
      cases hf : PlainHandler.finish vd
          (constructReturns model_rets additional_returns) with
      | error e => simp only [hf] at hv; exact Except.noConfusion hv
      | ok v' =>
        simp only [hf] at hv
        obtain rfl : v' = v := Except.ok.inj hv
        exact ⟨vd, rfl, plain_finish_ok_shape _ _ _ hf⟩

/-- Witness for C7 on the spec §8 plan with the single constructed
requested output `e`. -/
theorem call_returns_sorted_shape_witness :
    ∃ vd, PlainHandler.drive (PlainHandler.initiate exKwargs) exPlan = .ok vd ∧
      ((∃ r, constructReturns ["e"] [] = [r] ∧ vd r = some (.int 50)) ∨
       ((constructReturns ["e"] []).length ≠ 1 ∧
         ∃ vs, Value.int 50 = .seq vs ∧
           List.Forall₂ (fun r w => vd r = some w)
             (constructReturns ["e"] []) vs)) := by
  have hcr : constructReturns ["e"] [] = ["e"] := by
    simp [constructReturns, List.mergeSort]
  exact (call_returns_sorted_shape ["e"] [] exPlan exKwargs).2 (.int 50)
    (by rw [hcr]; decide)

/-- The configuration failure of the spec's §7 taxonomy. -/
inductive ConfigurationError where
  | unproducibleOutput : String → ConfigurationError
deriving DecidableEq, Repr

/-- Modelled from the spec: whether a requested output can be produced
by the plan — "no node produces it and it is not an external input
placeholder" is the failing case. -/
def producible (order : List PNode) (input_names : List String)
    (r : String) : Bool :=
  decide (∃ n ∈ order, r ∈ n.attr.returns) || decide (r ∈ input_names)

/-- Modelled from the spec: construction-time validation — the
construction "fails with a `ConfigurationError` if a requested output
cannot be produced by the plan"; the validation itself lives in code
not under src/ (`mmodel.utility` consumed by
`TopologicalHandler.__init__`). -/
def construct (order : List PNode)
    (input_names model_rets additional_returns : List String) :
    Except ConfigurationError (List String) :=
  match (constructReturns model_rets additional_returns).find?
      (fun r => !(producible order input_names r)) with
  | some r => .error (.unproducibleOutput r)
  | none => .ok (constructReturns model_rets additional_returns)

/-- **C3.** Construction fails with a `ConfigurationError` exactly when
some requested output is unproducible (no node returns it and it is not
an external input name); when all requested outputs are producible it
succeeds. -/
theorem construct_validates (order : List PNode)
    (input_names model_rets additional_returns : List String) :
    ((∃ cfg, construct order input_names model_rets additional_returns =
        .error cfg) ↔
      ∃ r ∈ constructReturns model_rets additional_returns,
        producible order input_names r = false) ∧
    ((∀ r ∈ constructReturns model_rets additional_returns,
        producible order input_names r = true) →
      construct order input_names model_rets additional_returns =
        .ok (constructReturns model_rets additional_returns)) := by
  constructor
  · cases hf : (constructReturns model_rets additional_returns).find?
        (fun r => !(producible order input_names r)) with
    | none =>
      have hok : construct order input_names model_rets additional_returns =
          .ok (constructReturns model_rets additional_returns) := by
        simp only [construct, hf]
      rw [List.find?_eq_none] at hf
      constructor
      · rintro ⟨cfg, hcfg⟩
        rw [hok] at hcfg
        exact Except.noConfusion hcfg
      · rintro ⟨r, hr, hprod⟩
        have := hf r hr
        rw [hprod] at this
        simp at this
    | some r =>
      have herr : construct order input_names model_rets additional_returns =
          .error (.unproducibleOutput r) := by
        simp only [construct, hf]
      have hp := List.find?_some hf
      have hm := List.mem_of_find?_eq_some hf
      exact ⟨fun _ => ⟨r, hm, by simpa using hp⟩,
        fun _ => ⟨.unproducibleOutput r, herr⟩⟩
  · intro hall
    have hf : (constructReturns model_rets additional_returns).find?
        (fun r => !(producible order input_names r)) = none := by
      rw [List.find?_eq_none]
      intro r hr
      rw [hall r hr]
      simp
    simp only [construct, hf]

/-- Witness for C3: on the spec §8 plan, requested output `e` is
producible and construction succeeds. -/
theorem construct_validates_witness :
    construct exPlan ["a", "b", "d"] ["e"] [] =
      .ok (constructReturns ["e"] []) := by
  refine (construct_validates exPlan ["a", "b", "d"] ["e"] []).2 ?_
  intro r hr
  have hcr : constructReturns ["e"] [] = ["e"] := by
    simp [constructReturns, List.mergeSort]
  rw [hcr] at hr
  simp only [List.mem_singleton] at hr
  subst hr
  decide

/-! ## The node loop and the wrapped node-execution error (C4) -/

/-- The shape of the node loop shared by the handlers, abstracted over
the per-strategy state and `run_node`. -/
def driveG {σ : Type} (step : σ → PNode → PyResult σ) :
    σ → List PNode → Except WrappedErr σ
  | s, [] => .ok s
  | s, n :: rest =>
    match step s n with
    | .ok s' => driveG step s' rest
    | .error e => .error (wrapErr n e)

theorem plain_drive_eq_driveG :
    ∀ (order : List PNode) (vd : VDict),
      PlainHandler.drive vd order =
        driveG (fun d n => PlainHandler.run_node d n.attr) vd order := by
  intro order
  induction order with
  | nil => intro vd; rfl
  | cons n rest ih =>
    intro vd
    simp only [PlainHandler.drive, driveG]
    cases PlainHandler.run_node vd n.attr with
    | ok vd' => exact ih vd'
    | error e => rfl

theorem mem_drive_eq_driveG :
    ∀ (order : List PNode) (st : MemHandler.MemData),
      MemHandler.drive st order =
        driveG (fun s n => MemHandler.run_node s n.attr) st order := by
  intro order
  induction order with
  | nil => intro st; rfl
  | cons n rest ih =>
    intro st
    simp only [MemHandler.drive, driveG]
    cases MemHandler.run_node st n.attr with
    | ok st' => exact ih st'
    | error e => rfl

/-- The node loop fails with a wrapped error exactly when some node of
the plan fails on the state reached by running the nodes before it, and
the wrapped error is built from that node and its raw error. -/
theorem driveG_error_iff {σ : Type} (step : σ → PNode → PyResult σ) :
    ∀ (order : List PNode) (s : σ) (w : WrappedErr),
      driveG step s order = .error w ↔
        ∃ pre n suf e, order = pre ++ n :: suf ∧ w = wrapErr n e ∧
          ∃ s', driveG step s pre = .ok s' ∧ step s' n = .error e := by
  intro order
  induction order with
  | nil =>
    intro s w
    constructor
    · intro h; exact Except.noConfusion h
    · rintro ⟨pre, n, suf, e, hdec, -⟩
      exact absurd hdec.symm (by simp)
  | cons n rest ih =>
    intro s w
    cases hs : step s n with
    | error e =>
      simp only [driveG, hs]
      constructor
      · intro h
        exact ⟨[], n, rest, e, rfl, (Except.error.inj h).symm, s, rfl, hs⟩
      · rintro ⟨pre, n', suf, e', hdec, hw, s', hpre, hstep⟩
        cases pre with
        | nil =>
          obtain ⟨rfl, rfl⟩ := List.cons.inj hdec
          obtain rfl : s = s' := Except.ok.inj hpre
          rw [hs] at hstep
          rw [hw, Except.error.inj hstep]
        | cons m pre' =>
          obtain ⟨rfl, hdec'⟩ := List.cons.inj hdec
          simp only [driveG, hs] at hpre
          exact Except.noConfusion hpre
    | ok s1 =>
      simp only [driveG, hs]
      rw [ih s1 w]
      constructor
      · rintro ⟨pre, n', suf, e, hdec, hw, s', hpre, hstep⟩
        exact ⟨n :: pre, n', suf, e, by rw [hdec]; rfl, hw, s',
          by simp only [driveG, hs]; exact hpre, hstep⟩
      · rintro ⟨pre, n', suf, e, hdec, hw, s', hpre, hstep⟩
        cases pre with
        | nil =>
          obtain ⟨rfl, rfl⟩ := List.cons.inj hdec
          obtain rfl : s = s' := Except.ok.inj hpre
          rw [hs] at hstep
          exact Except.noConfusion hstep
        | cons m pre' =>
          obtain ⟨rfl, hdec'⟩ := List.cons.inj hdec
          simp only [driveG, hs] at hpre
          exact ⟨pre', n', suf, e, hdec', hw, s', hpre, hstep⟩

theorem plain_call_nodeError_iff (order : List PNode) (rets : List String)
    (kwargs : List (String × Value)) (w : WrappedErr) :
    PlainHandler.call order rets kwargs = .error (.nodeError w) ↔
      PlainHandler.drive (PlainHandler.initiate kwargs) order = .error w := by
  cases hd : PlainHandler.drive (PlainHandler.initiate kwargs) order with
  | error w' => simp [PlainHandler.call, hd]
  | ok vd =>
    cases hf : PlainHandler.finish vd rets with
    | ok v => simp [PlainHandler.call, hd, hf]
    | error e => simp [PlainHandler.call, hd, hf]

theorem mem_call_nodeError_iff (counter : String → Option Int)
    (order : List PNode) (rets : List String)
    (kwargs : List (String × Value)) (w : WrappedErr) :
    MemHandler.call counter order rets kwargs = .error (.nodeError w) ↔
      MemHandler.drive (MemHandler.initiate counter kwargs) order = .error w := by
  cases hd : MemHandler.drive (MemHandler.initiate counter kwargs) order with
  | error w' => simp [MemHandler.call, hd]
  | ok st =>
    cases hf : MemHandler.finish st rets with
    | ok v => simp [MemHandler.call, hd, hf]
    | error e => simp [MemHandler.call, hd, hf]

/-- **C4.** For the Retain-All and Counted-Eviction strategies: the
call entry point raises the wrapped `NodeExecutionError` exactly when
some node of the plan raises on the state reached before it; the
wrapped error names the failing node (id, parameter names, return
names) and carries the original error as its cause (`wrapErr`), so the
original error is never swallowed, and when no node raises no such
error is raised.  (The Durable-Persisted strategy's version is part of
the C6 theorem.) -/
theorem node_execution_error_contract (order : List PNode)
    (rets : List String) (kwargs : List (String × Value))
    (counter : String → Option Int) :
    (∀ w, PlainHandler.call order rets kwargs = .error (.nodeError w) ↔
      ∃ pre n suf e, order = pre ++ n :: suf ∧ w = wrapErr n e ∧
        ∃ vd, PlainHandler.drive (PlainHandler.initiate kwargs) pre = .ok vd ∧
          PlainHandler.run_node vd n.attr = .error e) ∧
    (∀ w, MemHandler.call counter order rets kwargs = .error (.nodeError w) ↔
      ∃ pre n suf e, order = pre ++ n :: suf ∧ w = wrapErr n e ∧
        ∃ st, MemHandler.drive (MemHandler.initiate counter kwargs) pre =
            .ok st ∧
          MemHandler.run_node st n.attr = .error e) := by
  constructor
  · intro w
    rw [plain_call_nodeError_iff, plain_drive_eq_driveG, driveG_error_iff]
    constructor
    · rintro ⟨pre, n, suf, e, hdec, hw, vd, hpre, hstep⟩
      exact ⟨pre, n, suf, e, hdec, hw, vd,
        by rw [plain_drive_eq_driveG]; exact hpre, hstep⟩
    · rintro ⟨pre, n, suf, e, hdec, hw, vd, hpre, hstep⟩
      exact ⟨pre, n, suf, e, hdec, hw, vd,
        by rw [← plain_drive_eq_driveG]; exact hpre, hstep⟩
  · intro w
    rw [mem_call_nodeError_iff, mem_drive_eq_driveG, driveG_error_iff]
    constructor
    · rintro ⟨pre, n, suf, e, hdec, hw, st, hpre, hstep⟩
      exact ⟨pre, n, suf, e, hdec, hw, st,
        by rw [mem_drive_eq_driveG]; exact hpre, hstep⟩
    · rintro ⟨pre, n, suf, e, hdec, hw, st, hpre, hstep⟩
      exact ⟨pre, n, suf, e, hdec, hw, st,
        by rw [← mem_drive_eq_driveG]; exact hpre, hstep⟩

/-- Witness for C4: on a concrete plan whose second node raises
`ValueError`, the call raises the wrapped error naming that node with
the `ValueError` as cause, and the theorem recovers the failing node. -/
theorem node_execution_error_contract_witness :
    ∃ pre n suf e, boomPlan = pre ++ n :: suf ∧
      wrapErr boomNode ⟨"ValueError", "boom"⟩ = wrapErr n e ∧
      ∃ vd, PlainHandler.drive (PlainHandler.initiate exKwargs) pre = .ok vd ∧
        PlainHandler.run_node vd n.attr = .error e :=
  ((node_execution_error_contract boomPlan ["z"] exKwargs
    (fun _ => none)).1 (wrapErr boomNode ⟨"ValueError", "boom"⟩)).mp
    (by decide)

/-! ## The Durable-Persisted failure path (C6) -/

theorem h5_drive_error_iff :
    ∀ (order : List PNode) (file : H5File) (g : String) (w : WrappedErr)
      (f' : H5File),
      H5Handler.drive file g order = .error (w, f') ↔
        ∃ pre n suf e f1, order = pre ++ n :: suf ∧
          H5Handler.drive file g pre = .ok f1 ∧
          H5Handler.run_node f1 g n.attr = .error e ∧
          (w, f') = H5Handler.raise_node_exception f1 g n e := by
  intro order
  induction order with
  | nil =>
    intro file g w f'
    constructor
    · intro h; exact Except.noConfusion h
    · rintro ⟨pre, n, suf, e, f1, hdec, -⟩
      exact absurd hdec.symm (by simp)
  | cons n rest ih =>
    intro file g w f'
    cases hs : H5Handler.run_node file g n.attr with
    | error e =>
      simp only [H5Handler.drive, hs]
      constructor
      · intro h
        exact ⟨[], n, rest, e, file, rfl, rfl, hs, (Except.error.inj h).symm⟩
      · rintro ⟨pre, n', suf, e', f1, hdec, hpre, hstep, hpair⟩
        cases pre with
        | nil =>
          obtain ⟨rfl, rfl⟩ := List.cons.inj hdec
          obtain rfl : file = f1 := Except.ok.inj hpre
          rw [hs] at hstep
          obtain rfl : e' = e := (Except.error.inj hstep).symm
          rw [hpair]
        | cons m pre' =>
          obtain ⟨rfl, hdec'⟩ := List.cons.inj hdec
          simp only [H5Handler.drive, hs] at hpre
          exact Except.noConfusion hpre
    | ok file1 =>
      simp only [H5Handler.drive, hs]
      rw [ih file1 g w f']
      constructor
      · rintro ⟨pre, n', suf, e, f1, hdec, hpre, hstep, hpair⟩
        exact ⟨n :: pre, n', suf, e, f1, by rw [hdec]; rfl,
          by simp only [H5Handler.drive, hs]; exact hpre, hstep, hpair⟩
      · rintro ⟨pre, n', suf, e, f1, hdec, hpre, hstep, hpair⟩
        cases pre with
        | nil =>
          obtain ⟨rfl, rfl⟩ := List.cons.inj hdec
          obtain rfl : file = f1 := Except.ok.inj hpre
          rw [hs] at hstep
          exact Except.noConfusion hstep
        | cons m pre' =>
          obtain ⟨rfl, hdec'⟩ := List.cons.inj hdec
          simp only [H5Handler.drive, hs] at hpre
          exact ⟨pre', n', suf, e, f1, hdec', hpre, hstep, hpair⟩

/-- **C6.** When a node raises under the Durable-Persisted strategy,
the call returns the wrapped node-execution error built from the
failing node and its original error, the final store state is closed
(never left open after a failed call), and the current execution group
carries the `"note"` diagnostic attribute whose message names the
failing node and the underlying error's kind and message.  (The
sequencing write-note → close → raise of
`H5Handler.raise_node_exception` is modelled by the final state the
fail path returns.) -/
theorem h5_fail_annotates_closes_wraps (hs : H5Handler.H5State)
    (file : H5File) (order : List PNode) (rets : List String)
    (kwargs : List (String × Value)) (res : Except CallErr Value)
    (f' : H5File) (hs' : H5Handler.H5State)
    (hcall : H5Handler.call hs file order rets kwargs = (res, f', hs'))
    (w : WrappedErr) (hres : res = .error (.nodeError w)) :
    f'.isOpen = false ∧
    ∃ n e, (∃ pre suf, order = pre ++ n :: suf) ∧ w = wrapErr n e ∧
      (f'.getGroup (groupName hs.ident (hs.exe_count + 1))).attrsMap "note" =
        some (H5Handler.noteMsg n e) := by
  subst hres
  unfold H5Handler.call at hcall
  cases hd : H5Handler.drive (H5Handler.initiate hs file kwargs).2.1
      (H5Handler.initiate hs file kwargs).2.2 order with
  | ok f1 =>
    simp only [hd] at hcall
    rcases hf : H5Handler.finish f1
        (H5Handler.initiate hs file kwargs).2.2 rets with ⟨fres, f2⟩
    rw [hf] at hcall
    cases fres with
    | ok v => simp at hcall
    | error e => simp at hcall
  | error p =>
    obtain ⟨w', f1⟩ := p
    simp only [hd] at hcall
    have h1 := congrArg Prod.fst hcall
    have h2 := congrArg (fun t => t.2.1) hcall
    simp only at h1 h2
    obtain rfl : w' = w := CallErr.nodeError.inj (Except.error.inj h1)
    obtain rfl : f1 = f' := h2
    rw [h5_drive_error_iff] at hd
    obtain ⟨pre, n, suf, e, f2, hdec, hpre, hstep, hpair⟩ := hd
    have hw := congrArg Prod.fst hpair
    have hf2 := congrArg Prod.snd hpair
    simp only at hw hf2
    constructor
    · rw [hf2]; rfl
    · refine ⟨n, e, ⟨pre, suf, hdec⟩, hw, ?_⟩
      rw [hf2]
      show ((H5Handler.raise_node_exception f2
        (H5Handler.initiate hs file kwargs).2.2 n e).2.getGroup
          (groupName hs.ident (hs.exe_count + 1))).attrsMap "note" =
        some (H5Handler.noteMsg n e)
      simp [H5Handler.raise_node_exception, H5File.modifyGroup,
        H5File.getGroup, H5Handler.initiate]

/-- A concrete Durable-Persisted failing call (second node raises). -/
def h5FailExample : Except CallErr Value × H5File × H5Handler.H5State :=
  H5Handler.call (H5Handler.init "h") ⟨fun _ => none, false⟩ boomPlan ["z"]
    exKwargs

/-- Witness for C6 on the concrete failing Durable-Persisted call. -/
theorem h5_fail_annotates_closes_wraps_witness :
    h5FailExample.2.1.isOpen = false ∧
    ∃ n e, (∃ pre suf, boomPlan = pre ++ n :: suf) ∧
      wrapErr boomNode ⟨"ValueError", "boom"⟩ = wrapErr n e ∧
      (h5FailExample.2.1.getGroup
        (groupName (H5Handler.init "h").ident
          ((H5Handler.init "h").exe_count + 1))).attrsMap "note" =
        some (H5Handler.noteMsg n e) :=
  h5_fail_annotates_closes_wraps (H5Handler.init "h") ⟨fun _ => none, false⟩
    boomPlan ["z"] exKwargs h5FailExample.1 h5FailExample.2.1
    h5FailExample.2.2 rfl (wrapErr boomNode ⟨"ValueError", "boom"⟩) (by decide)

/-! ## Decimal printing is injective (for the execution-group names, C9) -/

theorem toDigitsCore_eq_digits :
    ∀ (fuel n : ℕ) (ds : List Char), 0 < n → n < fuel →
      Nat.toDigitsCore 10 fuel n ds =
        ((Nat.digits 10 n).map Nat.digitChar).reverse ++ ds := by
  intro fuel
  induction fuel with
  | zero => intro n ds hn hf; omega
  | succ fuel ih =>
    intro n ds hn hf
    rw [Nat.toDigitsCore]
    by_cases h0 : n / 10 = 0
    · have hlt : n < 10 := by omega
      simp only [h0, if_pos]
      rw [Nat.digits_def' (by norm_num : (1:ℕ) < 10) hn, h0]
      simp
    · have hn' : 0 < n / 10 := by omega
      have hlt : n / 10 < fuel := by
        have := Nat.div_lt_self hn (by norm_num : 1 < 10)
        omega
      simp only [h0, if_neg, ite_false]
      rw [ih (n / 10) (Nat.digitChar (n % 10) :: ds) hn' hlt]
      rw [Nat.digits_def' (by norm_num : (1:ℕ) < 10) hn]
      simp

theorem digitChar_inj_lt :
    ∀ a < 10, ∀ b < 10, Nat.digitChar a = Nat.digitChar b → a = b := by
  decide

theorem map_digitChar_inj :
    ∀ (l1 l2 : List ℕ), (∀ d ∈ l1, d < 10) → (∀ d ∈ l2, d < 10) →
      l1.map Nat.digitChar = l2.map Nat.digitChar → l1 = l2 := by
  intro l1
  induction l1 with
  | nil =>
    intro l2 _ _ h
    cases l2 with
    | nil => rfl
    | cons b l2 => simp at h
  | cons a l1 ih =>
    intro l2 h1 h2 h
    cases l2 with
    | nil => simp at h
    | cons b l2 =>
      simp only [List.map_cons, List.cons.injEq] at h
      have hab := digitChar_inj_lt a (h1 a (by simp)) b (h2 b (by simp)) h.1
      rw [hab,
        ih l2 (fun d hd => h1 d (by simp [hd])) (fun d hd => h2 d (by simp [hd])) h.2]

theorem nat_repr_injective : ∀ {m n : ℕ}, Nat.repr m = Nat.repr n → m = n := by
  intro m n h
  have hd : Nat.toDigits 10 m = Nat.toDigits 10 n := congrArg String.data h
  have hzero : Nat.toDigits 10 0 = ['0'] := rfl
  have hpos : ∀ k : ℕ, 0 < k →
      Nat.toDigits 10 k = ((Nat.digits 10 k).map Nat.digitChar).reverse := by
    intro k hk
    rw [Nat.toDigits, toDigitsCore_eq_digits (k + 1) k [] hk (by omega)]
    simp
  have hofd : ∀ k : ℕ, 0 < k → Nat.digits 10 k = [0] → False := by
    intro k hk hdig
    have := Nat.ofDigits_digits 10 k
    rw [hdig] at this
    simp [Nat.ofDigits] at this
    omega
  rcases Nat.eq_zero_or_pos m with rfl | hm
  · rcases Nat.eq_zero_or_pos n with rfl | hn
    · rfl
    · exfalso
      rw [hzero, hpos n hn] at hd
      have : Nat.digits 10 n = [0] := by
        have hrev : (Nat.digits 10 n).map Nat.digitChar = ['0'] := by
          have := congrArg List.reverse hd
          simpa using this.symm
        have := map_digitChar_inj (Nat.digits 10 n) [0]
          (fun d hdm => Nat.digits_lt_base (by norm_num) hdm)
          (by intro d hdm; simp at hdm; omega) (by simpa using hrev)
        exact this
      exact hofd n hn this
  · rcases Nat.eq_zero_or_pos n with rfl | hn
    · exfalso
      rw [hzero, hpos m hm] at hd
      have : Nat.digits 10 m = [0] := by
        have hrev : (Nat.digits 10 m).map Nat.digitChar = ['0'] := by
          have := congrArg List.reverse hd
          simpa using this
        have := map_digitChar_inj (Nat.digits 10 m) [0]
          (fun d hdm => Nat.digits_lt_base (by norm_num) hdm)
          (by intro d hdm; simp at hdm; omega) (by simpa using hrev)
        exact this
      exact hofd m hm this
    · rw [hpos m hm, hpos n hn] at hd
      have hmaps := List.reverse_injective hd
      have := map_digitChar_inj (Nat.digits 10 m) (Nat.digits 10 n)
        (fun d hdm => Nat.digits_lt_base (by norm_num) hdm)
        (fun d hdn => Nat.digits_lt_base (by norm_num) hdn) hmaps
      have hm' := Nat.ofDigits_digits 10 m
      have hn' := Nat.ofDigits_digits 10 n
      rw [this] at hm'
      rw [hn'] at hm'
      exact hm'.symm

theorem groupName_inj (ident : String) {m n : ℕ}
    (h : groupName ident m = groupName ident n) : m = n := by
  unfold groupName at h
  have hdata := congrArg String.data h
  simp only [String.data_append] at hdata
  have hrepr : (Nat.repr m).data = (Nat.repr n).data := by
    simpa [List.append_assoc] using hdata
  exact nat_repr_injective (String.ext hrepr)

/-! ## The per-executor call counter and group naming (C9) -/

/-- A sequence of calls on one Durable-Persisted executor instance,
threading the executor state and the file through. -/
def runCalls (order : List PNode) (rets : List String) :
    H5Handler.H5State → H5File → List (List (String × Value)) →
      H5Handler.H5State × H5File
  | hs, file, [] => (hs, file)
  | hs, file, kw :: rest =>
    runCalls order rets (H5Handler.call hs file order rets kw).2.2
      (H5Handler.call hs file order rets kw).2.1 rest

theorem h5_call_state (hs : H5Handler.H5State) (file : H5File)
    (order : List PNode) (rets : List String)
    (kwargs : List (String × Value)) :
    (H5Handler.call hs file order rets kwargs).2.2 =
      ⟨hs.ident, hs.exe_count + 1⟩ := by
  unfold H5Handler.call
  dsimp only
  split
  · rfl
  · split
    · rfl
    · rfl

theorem runCalls_state (order : List PNode) (rets : List String) :
    ∀ (kws : List (List (String × Value))) (hs : H5Handler.H5State)
      (file : H5File),
      (runCalls order rets hs file kws).1 =
        ⟨hs.ident, hs.exe_count + kws.length⟩ := by
  intro kws
  induction kws with
  | nil => intro hs file; rfl
  | cons kw rest ih =>
    intro hs file
    rw [runCalls, ih, h5_call_state]
    simp only [List.length_cons]
    congr 1
    omega

/-- **C9.** The Durable-Persisted executor's call counter starts at 0,
so the first call uses counter value 1; `initiate` — hence each call —
increments it exactly once and creates the execution group named
`"{executor_identity}_{counter}"`; after n calls on one executor the
counter is n (so the n-th call's group is named `"{id}_{n}"`); and
distinct counter values give distinct group names. -/
theorem h5_call_counter_and_naming (ident : String) (file : H5File)
    (order : List PNode) (rets : List String) :
    (H5Handler.init ident).exe_count = 0 ∧
    (∀ (hs : H5Handler.H5State) (f : H5File) (kwargs : List (String × Value)),
      (H5Handler.initiate hs f kwargs).1.exe_count = hs.exe_count + 1 ∧
      (H5Handler.initiate hs f kwargs).2.2 =
        groupName hs.ident (hs.exe_count + 1)) ∧
    (∀ (hs : H5Handler.H5State) (f : H5File) (kwargs : List (String × Value)),
      (H5Handler.call hs f order rets kwargs).2.2 =
        ⟨hs.ident, hs.exe_count + 1⟩) ∧
    (∀ kws : List (List (String × Value)),
      (runCalls order rets (H5Handler.init ident) file kws).1 =
        ⟨ident, kws.length⟩) ∧
    (∀ m n : ℕ, m ≠ n → groupName ident m ≠ groupName ident n) := by
  refine ⟨rfl, fun hs f kwargs => ⟨rfl, rfl⟩,
    fun hs f kwargs => h5_call_state hs f order rets kwargs,
    fun kws => by rw [runCalls_state]; simp [H5Handler.init],
    fun m n hmn hname => hmn (groupName_inj ident hname)⟩

/-- Witness for C9: the group names of the first and second call on one
executor differ. -/
theorem h5_call_counter_and_naming_witness :
    groupName "h" 1 ≠ groupName "h" 2 :=
  (h5_call_counter_and_naming "h" ⟨fun _ => none, false⟩ [] []).2.2.2.2 1 2
    (by decide)

/-! ## Counted-Eviction invariant (C2): counterexample and amended form -/

/-- A node consuming the external input `x` (the last consumer of `x`)
and returning `y`. -/
def consumeX : PNode := ⟨"consume_x", ⟨["x"], fun _ => .ok (.int 1), ["y"]⟩⟩

/-- A later node that re-produces the name `x` out of nothing. -/
def produceX : PNode := ⟨"produce_x", ⟨[], fun _ => .ok (.int 7), ["x"]⟩⟩

/-- A plan in which a node produces a name after that name's last
consumer already ran (legal: every parameter is still available when
consumed, and the order is topological as the nodes are unrelated). -/
def c2Plan : List PNode := [consumeX, produceX]

/-- Counterexample to C2 as stated: running the constructed
`MemHandler` on `c2Plan` with requested output `y` and input `x = 5`,
after the final `run_node` (a point in plan order after the last — and
only — consumer of `x`), the mapping still holds `x` (the re-produced
value `7`) although `x`'s working counter is `0` and `x` is not a
requested output. -/
theorem mem_zero_count_entry_counterexample :
    (MemHandler.drive
        (MemHandler.initiate (param_counter c2Plan ["y"]) [("x", .int 5)])
        c2Plan).map
      (fun st => (st.value_dict "x", st.count "x")) =
        .ok (some (.int 7), some 0) ∧
    "x" ∉ ["y"] := by
  constructor
  · decide
  · decide

/-- The plan property the counterexample forces one to assume: no node
returns a name that a strictly earlier node consumes, i.e. every value
is produced before all of its consumers. -/
def noLateProduce : List PNode → Bool
  | [] => true
  | n :: rest =>
    rest.all (fun m => m.attr.returns.all (fun r => decide (r ∉ n.attr.sig))) &&
      noLateProduce rest

theorem noLateProduce_cons {n : PNode} {rest : List PNode}
    (h : noLateProduce (n :: rest) = true) :
    (∀ m ∈ rest, ∀ r ∈ m.attr.returns, r ∉ n.attr.sig) ∧
      noLateProduce rest = true := by
  simp only [noLateProduce, Bool.and_eq_true, List.all_eq_true,
    decide_eq_true_eq] at h
  exact h

/-- The mapping holds no entry whose working counter has reached zero. -/
def ZeroEvicted (st : MemHandler.MemData) : Prop :=
  ∀ x, st.count x = some 0 → st.value_dict x = none

/-- No name still to be returned by a remaining node has counter zero. -/
def NoZeroReturns (st : MemHandler.MemData) (rest : List PNode) : Prop :=
  ∀ m ∈ rest, ∀ r ∈ m.attr.returns, st.count r ≠ some 0

theorem outPairs_keys_sub (rets : List String) (out : Value)
    (kvs : List (String × Value)) (h : outPairs rets out = .ok kvs) :
    ∀ x ∈ kvs.map Prod.fst, x ∈ rets := by
  match rets with
  | [r] =>
    simp only [outPairs] at h
    obtain rfl : [(r, out)] = kvs := Except.ok.inj h
    simp
  | [] =>
    simp only [outPairs] at h
    cases hts : out.toSeq with
    | error e => rw [hts] at h; simp [bind, Except.bind] at h
    | ok vs =>
      rw [hts] at h
      simp only [bind, Except.bind, pure, Except.pure] at h
      obtain rfl : ([] : List (String × Value)) = kvs := Except.ok.inj h
      simp
  | r1 :: r2 :: rs =>
    simp only [outPairs] at h
    cases hts : out.toSeq with
    | error e => rw [hts] at h; simp [bind, Except.bind] at h
    | ok vs =>
      rw [hts] at h
      simp only [bind, Except.bind, pure, Except.pure] at h
      obtain rfl : (r1 :: r2 :: rs).zip vs = kvs := Except.ok.inj h
      intro x hx
      simp only [List.mem_map] at hx
      obtain ⟨p, hp, rfl⟩ := hx
      exact (List.of_mem_zip hp).1

theorem storeOutput_apply_of_not_ret (d : VDict) (rets : List String)
    (out : Value) (vd1 : VDict) (x : String)
    (h : storeOutput d rets out = .ok vd1) (hx : x ∉ rets) : vd1 x = d x := by
  rw [storeOutput_eq_outPairs] at h
  cases ho : outPairs rets out with
  | error e => rw [ho] at h; simp [Except.map] at h
  | ok kvs =>
    rw [ho] at h
    simp only [Except.map] at h
    obtain rfl : insertAll d kvs = vd1 := Except.ok.inj h
    exact insertAll_apply_of_not_mem x kvs d
      (fun hmem => hx (outPairs_keys_sub rets out kvs ho x hmem))

theorem c2_step (st st' : MemHandler.MemData) (n : PNode) (rest : List PNode)
    (hwf1 : ∀ m ∈ rest, ∀ r ∈ m.attr.returns, r ∉ n.attr.sig)
    (hJ : NoZeroReturns st (n :: rest)) (hZ : ZeroEvicted st)
    (hrun : MemHandler.run_node st n.attr = .ok st') :
    NoZeroReturns st' rest ∧ ZeroEvicted st' := by
  simp only [MemHandler.run_node, bindE_ok] at hrun
  obtain ⟨args, hargs, out, hout, vd1, hvd1, hcd⟩ := hrun
  obtain ⟨hnone, hsome⟩ := MemHandler.countdown_ok_spec _ _ _ hcd
  dsimp only at hnone hsome
  constructor
  · intro m hm r hr hr0
    cases hc : st.count r with
    | none =>
      rw [(hnone r hc).1] at hr0
      exact Option.noConfusion hr0
    | some c =>
      rw [(hsome r c hc).1] at hr0
      have hc0 : c = (List.count r n.attr.sig : Int) :=
        by have := Option.some.inj hr0; omega
      by_cases hmul : 0 < List.count r n.attr.sig
      · exact hwf1 m hm r hr (List.count_pos_iff.mp hmul)
      · have : c = 0 := by omega
        exact hJ m (List.mem_cons_of_mem n hm) r hr (by rw [hc, this])
  · intro x hx0
    cases hc : st.count x with
    | none =>
      rw [(hnone x hc).1] at hx0
      exact Option.noConfusion hx0
    | some c =>
      obtain ⟨h1, h2⟩ := hsome x c hc
      rw [h1] at hx0
      have hc0 : c = (List.count x n.attr.sig : Int) :=
        by have := Option.some.inj hx0; omega
      rw [h2]
      by_cases hmul : 0 < List.count x n.attr.sig
      · rw [if_pos ⟨by omega, by omega⟩]
      · have hcz : c = 0 := by omega
        rw [if_neg (by omega)]
        have hxret : x ∉ n.attr.returns := fun hmem =>
          hJ n (by simp) x hmem (by rw [hc, hcz])
        rw [storeOutput_apply_of_not_ret st.value_dict n.attr.returns out vd1 x
          hvd1 hxret]
        exact hZ x (by rw [hc, hcz])

theorem c2_run :
    ∀ (order : List PNode) (st : MemHandler.MemData),
      noLateProduce order = true → NoZeroReturns st order → ZeroEvicted st →
      ∀ (k : ℕ) (st' : MemHandler.MemData),
        MemHandler.drive st (order.take k) = .ok st' → ZeroEvicted st' := by
  intro order
  induction order with
  | nil =>
    intro st _ _ hZ k st' h
    rw [List.take_nil] at h
    obtain rfl : st = st' := Except.ok.inj h
    exact hZ
  | cons n rest ih =>
    intro st hwf hJ hZ k st' h
    cases k with
    | zero =>
      obtain rfl : st = st' := Except.ok.inj h
      exact hZ
    | succ k =>
      rw [List.take_succ_cons] at h
      simp only [MemHandler.drive] at h
      cases hrun : MemHandler.run_node st n.attr with
      | error e => rw [hrun] at h; exact Except.noConfusion h
      | ok st1 =>
        rw [hrun] at h
        obtain ⟨hwf1, hwfrest⟩ := noLateProduce_cons hwf
        obtain ⟨hJ', hZ'⟩ := c2_step st st1 n rest hwf1 hJ hZ hrun
        exact ih st1 hwfrest hJ' hZ' k st' h

theorem param_counter_ne_zero (order : List PNode) (rets : List String)
    (x : String) : param_counter order rets x ≠ some 0 := by
  intro heq
  simp only [param_counter] at heq
  generalize hq : refCount order x + (if x ∈ rets then 1 else 0) = q at heq
  by_cases h : q = 0
  · rw [if_pos h] at heq
    exact Option.noConfusion heq
  · rw [if_neg h] at heq
    have := Option.some.inj heq
    omega

/-- **C2 (amended).** For a constructed `MemHandler` (counter =
`param_counter`), provided no node of the plan returns a name consumed
by a strictly earlier node (every value is produced before all of its
consumers — the property the counterexample plan violates), after every
`run_node`, i.e. after any executed prefix of the plan, the mapping
holds no entry whose working counter has reached zero; so after the
last node consuming a value, the value is absent unless it is a
requested output or has remaining consumers. -/
theorem mem_no_zero_count_entries (order : List PNode) (rets : List String)
    (kwargs : List (String × Value)) (k : ℕ) (st : MemHandler.MemData)
    (hwf : noLateProduce order = true)
    (hdrive : MemHandler.drive
      (MemHandler.initiate (param_counter order rets) kwargs)
      (order.take k) = .ok st) :
    ∀ x, st.count x = some 0 → st.value_dict x = none := by
  refine c2_run order _ hwf ?_ ?_ k st hdrive
  · intro m _ r _ hr0
    exact param_counter_ne_zero order rets r hr0
  · intro x hx0
    exact absurd hx0 (param_counter_ne_zero order rets x)

/-- Witness for the amended C2 on the spec §8 plan: after both nodes
ran, `c`'s working counter is zero and `c` is indeed gone from the
mapping. -/
theorem mem_no_zero_count_entries_witness :
    ∃ st, MemHandler.drive
        (MemHandler.initiate (param_counter exPlan ["e"]) exKwargs)
        (exPlan.take 2) = .ok st ∧
      st.value_dict "c" = none := by
  have hmap : (MemHandler.drive
      (MemHandler.initiate (param_counter exPlan ["e"]) exKwargs)
      (exPlan.take 2)).map
        (fun st => MemHandler.MemData.count st "c") = .ok (some 0) := by decide
  cases hdrive : MemHandler.drive
      (MemHandler.initiate (param_counter exPlan ["e"]) exKwargs)
      (exPlan.take 2) with
  | error e => rw [hdrive] at hmap; simp [Except.map] at hmap
  | ok st =>
    rw [hdrive] at hmap
    have hc : st.count "c" = some 0 := by simpa [Except.map] using hmap
    exact ⟨st, rfl, mem_no_zero_count_entries exPlan ["e"] exKwargs 2 st
      (by decide) hdrive "c" hc⟩

/-! ## Cross-strategy equivalence (C1): Counted-Eviction vs Retain-All -/

theorem refCount_cons (n : PNode) (rest : List PNode) (x : String) :
    refCount (n :: rest) x = List.count x n.attr.sig + refCount rest x := by
  simp [refCount]

theorem refCount_pos (rest : List PNode) (n' : PNode) (x : String)
    (hn' : n' ∈ rest) (hx : x ∈ n'.attr.sig) : 0 < refCount rest x := by
  induction rest with
  | nil => cases hn'
  | cons m rest ih =>
    rw [refCount_cons]
    rcases List.mem_cons.mp hn' with rfl | hmem
    · have := List.count_pos_iff.mpr hx
      omega
    · have := ih hmem
      omega

theorem storeOutput_congr_cases (d1 d2 : VDict) (rets : List String)
    (out : Value) :
    (∃ e, storeOutput d1 rets out = .error e ∧
      storeOutput d2 rets out = .error e) ∨
    (∃ kvs, outPairs rets out = .ok kvs ∧
      storeOutput d1 rets out = .ok (insertAll d1 kvs) ∧
      storeOutput d2 rets out = .ok (insertAll d2 kvs)) := by
  rw [storeOutput_eq_outPairs, storeOutput_eq_outPairs]
  cases ho : outPairs rets out with
  | error e => exact Or.inl ⟨e, by simp [Except.map], by simp [Except.map]⟩
  | ok kvs => exact Or.inr ⟨kvs, rfl, by simp [Except.map], by simp [Except.map]⟩

theorem plain_finish_congr (d1 d2 : VDict) (rets : List String)
    (h : ∀ r ∈ rets, d1 r = d2 r) :
    PlainHandler.finish d1 rets = PlainHandler.finish d2 rets := by
  match rets with
  | [rt] => simp only [PlainHandler.finish, h rt (by simp)]
  | [] => rfl
  | r1 :: r2 :: rts =>
    show (do
        let vs ← gather d1 (r1 :: r2 :: rts)
        pure (Value.seq vs) : PyResult Value) =
      (do
        let vs ← gather d2 (r1 :: r2 :: rts)
        pure (Value.seq vs) : PyResult Value)
    rw [gather_congr (r1 :: r2 :: rts) d1 d2 h]

/-- The simulation invariant between a Counted-Eviction state and the
Retain-All mapping: they agree on every name that is still needed (a
parameter of a remaining node or a requested output), and the working
counter holds the spec counter value for the remaining plan (`dead`
names — never counted — have no entry). -/
structure MemSim (dead : String → Prop) (rets : List String)
    (rest : List PNode) (st : MemHandler.MemData) (vd : VDict) : Prop where
  agree : ∀ x, ((∃ n ∈ rest, x ∈ n.attr.sig) ∨ x ∈ rets) →
    st.value_dict x = vd x
  cnt : ∀ x, (dead x → st.count x = none) ∧
    (¬ dead x → st.count x =
      some ((refCount rest x + (if x ∈ rets then 1 else 0) : ℕ) : Int))
  hdead : ∀ x, dead x → (∀ n ∈ rest, x ∉ n.attr.sig) ∧ x ∉ rets

theorem mem_plain_step (dead : String → Prop) (rets : List String)
    (n : PNode) (rest : List PNode) (st : MemHandler.MemData) (vd : VDict)
    (hsim : MemSim dead rets (n :: rest) st vd) :
    (∃ e, MemHandler.run_node st n.attr = .error e ∧
      PlainHandler.run_node vd n.attr = .error e) ∨
    (∃ st' vd', MemHandler.run_node st n.attr = .ok st' ∧
      PlainHandler.run_node vd n.attr = .ok vd' ∧
      MemSim dead rets rest st' vd') := by
  have hgm : gather st.value_dict n.attr.sig = gather vd n.attr.sig :=
    gather_congr n.attr.sig st.value_dict vd
      (fun k hk => hsim.agree k (Or.inl ⟨n, by simp, hk⟩))
  cases hga : gather vd n.attr.sig with
  | error e =>
    refine Or.inl ⟨e, ?_, ?_⟩
    · simp [MemHandler.run_node, hgm, hga, bind, Except.bind]
    · simp [PlainHandler.run_node, hga, bind, Except.bind]
  | ok args =>
    cases hobj : n.attr.obj args with
    | error e =>
      refine Or.inl ⟨e, ?_, ?_⟩
      · simp [MemHandler.run_node, hgm, hga, hobj, bind, Except.bind]
      · simp [PlainHandler.run_node, hga, hobj, bind, Except.bind]
    | ok out =>
      rcases storeOutput_congr_cases st.value_dict vd n.attr.returns out with
        ⟨e, hs1, hs2⟩ | ⟨kvs, hkvs, hs1, hs2⟩
      · refine Or.inl ⟨e, ?_, ?_⟩
        · simp [MemHandler.run_node, hgm, hga, hobj, hs1, bind, Except.bind]
        · simp [PlainHandler.run_node, hga, hobj, hs2, bind, Except.bind]
      · have hdom : ∀ k ∈ n.attr.sig,
            ((⟨insertAll st.value_dict kvs, st.count⟩ :
              MemHandler.MemData).count k).isSome := by
          intro k hk
          have hnd : ¬ dead k := fun hd => (hsim.hdead k hd).1 n (by simp) hk
          rw [show (⟨insertAll st.value_dict kvs, st.count⟩ :
            MemHandler.MemData).count = st.count from rfl,
            (hsim.cnt k).2 hnd]
          simp
        obtain ⟨st', hcd⟩ := MemHandler.countdown_total n.attr.sig _ hdom
        obtain ⟨hnone, hsome⟩ := MemHandler.countdown_ok_spec _ _ _ hcd
        dsimp only at hnone hsome
        refine Or.inr ⟨st', insertAll vd kvs, ?_, ?_, ?_, ?_, ?_⟩
        · simp [MemHandler.run_node, hgm, hga, hobj, hs1, bind, Except.bind,
            hcd]
        · simp [PlainHandler.run_node, hga, hobj, hs2, bind, Except.bind]
        · -- agreement on the names still needed
          intro x hneed
          have hnd : ¬ dead x := by
            intro hd
            obtain ⟨hsig, hrets⟩ := hsim.hdead x hd
            rcases hneed with ⟨n', hn', hx⟩ | hx
            · exact hsig n' (List.mem_cons_of_mem n hn') hx
            · exact hrets hx
          have hc := (hsim.cnt x).2 hnd
          obtain ⟨h1, h2⟩ := hsome x _ hc
          have hge : 1 ≤ refCount rest x + (if x ∈ rets then 1 else 0) := by
            rcases hneed with ⟨n', hn', hx⟩ | hx
            · have := refCount_pos rest n' x hn' hx
              omega
            · rw [if_pos hx]
              omega
          rw [h2, if_neg ?_]
          · exact insertAll_congr_at x kvs _ _ (hsim.agree x
              (by
                rcases hneed with ⟨n', hn', hx⟩ | hx
                · exact Or.inl ⟨n', List.mem_cons_of_mem n hn', hx⟩
                · exact Or.inr hx))
          · rintro ⟨-, hb⟩
            have hb' : refCount (n :: rest) x + (if x ∈ rets then 1 else 0) ≤
                List.count x n.attr.sig := by exact_mod_cast hb
            rw [refCount_cons] at hb'
            omega
        · -- counter shape for the remaining plan
          intro x
          constructor
          · intro hd
            exact (hnone x ((hsim.cnt x).1 hd)).1
          · intro hnd
            have hc := (hsim.cnt x).2 hnd
            rw [(hsome x _ hc).1]
            congr 1
            rw [refCount_cons]
            push_cast
            ring
        · exact fun x hd => ⟨fun n' hn' =>
            (hsim.hdead x hd).1 n' (List.mem_cons_of_mem n hn'),
            (hsim.hdead x hd).2⟩

theorem mem_plain_drive (dead : String → Prop) (rets : List String) :
    ∀ (rest : List PNode) (st : MemHandler.MemData) (vd : VDict),
      MemSim dead rets rest st vd →
      (∃ w, MemHandler.drive st rest = .error w ∧
        PlainHandler.drive vd rest = .error w) ∨
      (∃ st' vd', MemHandler.drive st rest = .ok st' ∧
        PlainHandler.drive vd rest = .ok vd' ∧
        ∀ x ∈ rets, st'.value_dict x = vd' x) := by
  intro rest
  induction rest with
  | nil =>
    intro st vd hsim
    exact Or.inr ⟨st, vd, rfl, rfl, fun x hx => hsim.agree x (Or.inr hx)⟩
  | cons n rest ih =>
    intro st vd hsim
    rcases mem_plain_step dead rets n rest st vd hsim with
      ⟨e, hm, hp⟩ | ⟨st1, vd1, hm, hp, hsim'⟩
    · exact Or.inl ⟨wrapErr n e,
        by simp [MemHandler.drive, hm], by simp [PlainHandler.drive, hp]⟩
    · rcases ih st1 vd1 hsim' with ⟨w, hm', hp'⟩ | ⟨st', vd', hm', hp', hagree⟩
      · exact Or.inl ⟨w,
          by simp [MemHandler.drive, hm, hm'],
          by simp [PlainHandler.drive, hp, hp']⟩
      · exact Or.inr ⟨st', vd',
          by simp [MemHandler.drive, hm, hm'],
          by simp [PlainHandler.drive, hp, hp'], hagree⟩

theorem mem_callFull_eq_plain (order : List PNode) (rets : List String)
    (kwargs : List (String × Value)) :
    MemHandler.callFull order rets kwargs =
      PlainHandler.call order rets kwargs := by
  have hsim : MemSim
      (fun x => refCount order x + (if x ∈ rets then 1 else 0) = 0) rets order
      (MemHandler.initiate (param_counter order rets) kwargs)
      (PlainHandler.initiate kwargs) := by
    refine ⟨fun x _ => rfl, fun x => ⟨?_, ?_⟩, fun x hd => ⟨?_, ?_⟩⟩
    · intro hd
      show param_counter order rets x = none
      simp only [param_counter]
      rw [if_pos hd]
    · intro hnd
      show param_counter order rets x = _
      simp only [param_counter]
      rw [if_neg hnd]
    · intro n hn hx
      have := refCount_pos order n x hn hx
      omega
    · intro hx
      rw [if_pos hx] at hd
      omega
  rcases mem_plain_drive _ rets order _ _ hsim with
    ⟨w, hm, hp⟩ | ⟨st', vd', hm, hp, hagree⟩
  · show MemHandler.call (param_counter order rets) order rets kwargs = _
    simp [MemHandler.call, PlainHandler.call, hm, hp]
  · show MemHandler.call (param_counter order rets) order rets kwargs = _
    have hfin : MemHandler.finish st' rets = PlainHandler.finish vd' rets := by
      rw [mem_finish_eq_plain]
      exact plain_finish_congr st'.value_dict vd' rets hagree
    cases hf : PlainHandler.finish vd' rets with
    | ok v =>
      simp [MemHandler.call, PlainHandler.call, hm, hp, hfin, hf]
    | error e =>
      simp [MemHandler.call, PlainHandler.call, hm, hp, hfin, hf]

/-! ## Cross-strategy equivalence (C1): Durable-Persisted vs Retain-All -/

theorem h5_write_datasets (kvs : List (String × Value)) (file : H5File)
    (g : String) :
    ((H5Handler.write kvs file g).getGroup g).datasets =
      insertAll (file.getGroup g).datasets kvs := by
  simp [H5Handler.write, H5File.modifyGroup, H5File.getGroup]

theorem h5_run_node_eq (file : H5File) (g : String) (attr : NodeAttr) :
    H5Handler.run_node file g attr = (do
      let args ← gather (file.getGroup g).datasets attr.sig
      let out ← attr.obj args
      (outPairs attr.returns out).map (fun kvs => H5Handler.write kvs file g) :
        PyResult H5File) := by
  unfold H5Handler.run_node
  congr 1
  funext args
  congr 1
  funext out
  cases hr : attr.returns with
  | nil => cases out <;> rfl
  | cons r rts =>
    cases rts with
    | nil => rfl
    | cons r2 rs => cases out <;> rfl

theorem h5_plain_step (file : H5File) (g : String) (vd : VDict) (n : PNode)
    (hds : ∀ x, (file.getGroup g).datasets x = vd x) :
    (∃ e, H5Handler.run_node file g n.attr = .error e ∧
      PlainHandler.run_node vd n.attr = .error e) ∨
    (∃ f' vd', H5Handler.run_node file g n.attr = .ok f' ∧
      PlainHandler.run_node vd n.attr = .ok vd' ∧
      ∀ x, (f'.getGroup g).datasets x = vd' x) := by
  have hgm : gather (file.getGroup g).datasets n.attr.sig =
      gather vd n.attr.sig :=
    gather_congr n.attr.sig _ vd (fun k _ => hds k)
  rw [h5_run_node_eq]
  cases hga : gather vd n.attr.sig with
  | error e =>
    refine Or.inl ⟨e, ?_, ?_⟩
    · simp [hgm, hga, bind, Except.bind]
    · simp [PlainHandler.run_node, hga, bind, Except.bind]
  | ok args =>
    cases hobj : n.attr.obj args with
    | error e =>
      refine Or.inl ⟨e, ?_, ?_⟩
      · simp [hgm, hga, hobj, bind, Except.bind]
      · simp [PlainHandler.run_node, hga, hobj, bind, Except.bind]
    | ok out =>
      cases ho : outPairs n.attr.returns out with
      | error e =>
        refine Or.inl ⟨e, ?_, ?_⟩
        · simp [hgm, hga, hobj, ho, bind, Except.bind, Except.map]
        · simp [PlainHandler.run_node, hga, hobj, bind, Except.bind,
            storeOutput_eq_outPairs, ho, Except.map]
      | ok kvs =>
        refine Or.inr ⟨H5Handler.write kvs file g, insertAll vd kvs, ?_, ?_, ?_⟩
        · simp [hgm, hga, hobj, ho, bind, Except.bind, Except.map]
        · simp [PlainHandler.run_node, hga, hobj, bind, Except.bind,
            storeOutput_eq_outPairs, ho, Except.map]
        · intro x
          rw [congrFun (h5_write_datasets kvs file g) x]
          exact insertAll_congr_at x kvs _ _ (hds x)

theorem h5_plain_drive (g : String) :
    ∀ (rest : List PNode) (file : H5File) (vd : VDict),
      (∀ x, (file.getGroup g).datasets x = vd x) →
      (∃ w f', H5Handler.drive file g rest = .error (w, f') ∧
        PlainHandler.drive vd rest = .error w) ∨
      (∃ f' vd', H5Handler.drive file g rest = .ok f' ∧
        PlainHandler.drive vd rest = .ok vd' ∧
        ∀ x, (f'.getGroup g).datasets x = vd' x) := by
  intro rest
  induction rest with
  | nil =>
    intro file vd hds
    exact Or.inr ⟨file, vd, rfl, rfl, hds⟩
  | cons n rest ih =>
    intro file vd hds
    rcases h5_plain_step file g vd n hds with
      ⟨e, hh, hp⟩ | ⟨f1, vd1, hh, hp, hds'⟩
    · exact Or.inl ⟨wrapErr n e, (H5Handler.raise_node_exception file g n e).2,
        by simp [H5Handler.drive, hh, H5Handler.raise_node_exception],
        by simp [PlainHandler.drive, hp]⟩
    · rcases ih f1 vd1 hds' with ⟨w, f', hh', hp'⟩ | ⟨f', vd', hh', hp', hds''⟩
      · exact Or.inl ⟨w, f',
          by simp [H5Handler.drive, hh, hh'],
          by simp [PlainHandler.drive, hp, hp']⟩
      · exact Or.inr ⟨f', vd',
          by simp [H5Handler.drive, hh, hh'],
          by simp [PlainHandler.drive, hp, hp'], hds''⟩

theorem h5_finish_value_congr (f1 : H5File) (g : String) (vd' : VDict)
    (rets : List String)
    (hds : ∀ x, (f1.getGroup g).datasets x = vd' x) :
    (H5Handler.finish f1 g rets).1 = PlainHandler.finish vd' rets := by
  match rets with
  | [rt] =>
    simp only [H5Handler.finish, H5Handler.read, hds rt, PlainHandler.finish]
    cases hv : vd' rt <;> simp [hv]
  | [] => rfl
  | r1 :: r2 :: rts =>
    have hg := gather_congr (r1 :: r2 :: rts) (f1.getGroup g).datasets vd'
      (fun k _ => hds k)
    simp only [H5Handler.finish, hg, PlainHandler.finish]
    cases hgg : gather vd' (r1 :: r2 :: rts) <;>
      simp [hgg, bind, Except.bind, pure, Except.pure]

theorem h5_call_value_eq_plain (hs : H5Handler.H5State) (file : H5File)
    (order : List PNode) (rets : List String)
    (kwargs : List (String × Value)) :
    (H5Handler.call hs file order rets kwargs).1 =
      PlainHandler.call order rets kwargs := by
  have hinit : ∀ x,
      (((H5Handler.initiate hs file kwargs).2.1).getGroup
        ((H5Handler.initiate hs file kwargs).2.2)).datasets x =
      PlainHandler.initiate kwargs x := by
    intro x
    show ((H5Handler.write kwargs
        (H5File.createGroup { file with isOpen := true }
          (groupName hs.ident (hs.exe_count + 1)))
        (groupName hs.ident (hs.exe_count + 1))).getGroup
          (groupName hs.ident (hs.exe_count + 1))).datasets x =
      PlainHandler.initiate kwargs x
    rw [congrFun (h5_write_datasets kwargs _ _) x]
    have hbase : ((H5File.createGroup { file with isOpen := true }
        (groupName hs.ident (hs.exe_count + 1))).getGroup
          (groupName hs.ident (hs.exe_count + 1))).datasets = VDict.empty := by
      simp [H5File.createGroup, H5File.getGroup, H5Group.empty]
      rfl
    rw [hbase]
    rfl
  rcases h5_plain_drive ((H5Handler.initiate hs file kwargs).2.2) order
      ((H5Handler.initiate hs file kwargs).2.1) (PlainHandler.initiate kwargs)
      hinit with ⟨w, f1, hh, hp⟩ | ⟨f1, vd1, hh, hp, hds⟩
  · unfold H5Handler.call
    dsimp only
    rw [hh]
    simp [PlainHandler.call, hp]
  · unfold H5Handler.call
    dsimp only
    rw [hh]
    dsimp only
    have hval := h5_finish_value_congr f1 _ vd1 rets hds
    rcases hfin : H5Handler.finish f1 ((H5Handler.initiate hs file kwargs).2.2)
        rets with ⟨fres, f2⟩
    rw [hfin] at hval
    cases fres with
    | ok v => simp [PlainHandler.call, hp, ← hval]
    | error e => simp [PlainHandler.call, hp, ← hval]

/-- **C1.** For every plan and assignment of named inputs (node
callables are pure functions in this embedding), the Counted-Eviction
strategy (constructed `MemHandler`, counter = `param_counter`) and the
Durable-Persisted strategy (`H5Handler`, on any executor state and any
backing store) return exactly the result of the Retain-All strategy
(`PlainHandler`) — the same output values and the same errors.  The
durable round trip is exact here, so "modulo type representation" is
equality. -/
theorem handlers_equivalent (order : List PNode) (rets : List String)
    (kwargs : List (String × Value)) (hs : H5Handler.H5State)
    (file : H5File) :
    MemHandler.callFull order rets kwargs =
      PlainHandler.call order rets kwargs ∧
    (H5Handler.call hs file order rets kwargs).1 =
      PlainHandler.call order rets kwargs :=
  ⟨mem_callFull_eq_plain order rets kwargs,
   h5_call_value_eq_plain hs file order rets kwargs⟩

end MModel
